import Mathlib

/-!
# Verification of the password generation-and-analysis engine

This development gives a shallow embedding, in Lean 4, of the core
generation-and-analysis engine of the `autofill-extension` repository
(`src/options.js`): the character pools, the exact inclusion–exclusion
counting (`countValidSequences`, `countRemaining`), the entropy analyzer
(`bigIntLog2`, `calculateShannonEntropyGuaranteed`, `calculateEntropy`),
the random primitives (`getSecureRandomInt`, `getSecureRandomBigInt`,
`fisherYatesShuffle`) and the three-tier sampling pipeline culminating in
`generatePassword` / `prepareActiveSets`.

Modelling conventions:
* JavaScript `BigInt` values are embedded as `ℤ`, array indices and
  lengths as `ℕ`, IEEE doubles as `ℝ` (with `Math.log2 = Real.logb 2`,
  `Math.log = Real.log`, `Math.exp = Real.exp`).
* `while`-loops are embedded as fuel-indexed structural recursions; every
  top-level entry point supplies a fuel that is proved (or is easily seen)
  sufficient, and loops that can genuinely run forever (the rejection
  loop of `getSecureRandomInt`) return `Option` values, `none` meaning
  "did not terminate within the fuel".
* The cryptographically random source is modelled as an oracle
  `R : ℕ → ℕ` together with a draw counter: the `n`-th accepted draw
  below an exclusive bound `max ≥ 2` is `R n % max`, which ranges over
  exactly the values the rejection sampler can produce; quantifying over
  `R` quantifies over every behaviour of the random source.
* JavaScript strings are embedded as `List Char`; `str.includes(c)` for a
  single character `c` is `List.contains`.
-/

namespace Autofill

/-! ## Character classes (`PWD_CHARS` in `src/options.js`) -/

/-- `PWD_CHARS.LOWER`. -/
def lowerChars : List Char := "abcdefghijklmnopqrstuvwxyz".toList

/-- `PWD_CHARS.UPPER`. -/
def upperChars : List Char := "ABCDEFGHIJKLMNOPQRSTUVWXYZ".toList

/-- `PWD_CHARS.NUMS`. -/
def numsChars : List Char := "0123456789".toList

/-- `PWD_CHARS.SYMBOLS` (32 symbols; the two brace characters are written
with hex escapes). -/
def symbolsChars : List Char := "'\"\\!@#$%^&*()_+~`|\x7d\x7b[]:;?><,./-=".toList

/-- `PWD_CHARS.AMBIGUOUS`. -/
def ambiguousChars : List Char := "il1I|Lo0O2Z5S8B".toList

/-- `PWD_CHARS.CODE_UNSAFE`. -/
def codeUnsafeChars : List Char := "'\"\\$^*()+~|\x7d\x7b[]?><./".toList

/-! ## `countValidSequences` (inclusion–exclusion via an explicit stack)

The source enumerates all `2^k` subsets with an explicit stack of frames
`{i, missing, parity}`; popping a frame with `i = k` adds
`(±1)·(poolSize − missing)^L` (skipping the impossible negative
`remaining`, which never occurs for non-negative sizes), and popping a
frame with `i < k` pushes the two frames for "skip class `i`" and
"exclude class `i`".  The `while (stack.length)` loop is embedded with a
fuel parameter; `2^(k+1)` fuel always suffices (proved below). -/

/-- One stack frame of the subset enumeration in `countValidSequences`. -/
structure PieFrame where
  i : ℕ
  missing : ℤ
  parity : ℕ
deriving Repr, DecidableEq

/-- The body of the `while (stack.length)` loop of `countValidSequences`.
The list head is the top of the stack; the source pushes the "skip class
`i`" frame first and the "exclude class `i`" frame second, so the
excluding frame is popped first.  (The source tests `i === k`; reachable
frames always have `i ≤ k`, so the test is written `i < k` vs. `¬ i < k`.) -/
def cvsRun (L k : ℕ) (sizes : List ℕ) (poolSize : ℤ) :
    ℕ → List PieFrame → ℤ → Option ℤ
  | 0, _, _ => none
  | _ + 1, [], total => some total
  | fuel + 1, f :: rest, total =>
    if f.i < k then
      cvsRun L k sizes poolSize fuel
        (⟨f.i + 1, f.missing + (sizes.getD f.i 0 : ℤ), f.parity ^^^ 1⟩ ::
          ⟨f.i + 1, f.missing, f.parity⟩ :: rest) total
    else
      let remaining := poolSize - f.missing
      cvsRun L k sizes poolSize fuel rest
        (if 0 ≤ remaining then
          (if f.parity = 0 then total + remaining ^ L else total - remaining ^ L)
        else total)

/-- `countValidSequences(len, setSizes)` from `src/options.js`, for a
non-negative integer length and non-negative integer class sizes (the
argument-validation `throw`s of the source are unrepresentable at these
types).  The fuel `2^(k+1)` strictly exceeds the `2^(k+1) − 1` pops the
stack loop performs. -/
def countValidSequences (L : ℕ) (setSizes : List ℕ) : ℤ :=
  (cvsRun L setSizes.length setSizes (setSizes.sum : ℤ)
    (2 ^ (setSizes.length + 1)) [⟨0, 0, 0⟩] 0).getD 0

/-! ## `countRemaining` (inclusion–exclusion over unsatisfied classes)

The source validates `remLen` and `currentMask` (a `RangeError` is
embedded as `none`), then enumerates every submask `sub` of
`neededMask = allMask ^ currentMask` with the standard
`sub = (sub - 1) & neededMask` loop, accumulating
`(−1)^bits · (poolSize − missingSize)^remLen`. -/

/-- The body of the submask loop of `countRemaining`.  `fuel ≥ sub + 1`
always suffices since each step strictly decreases `sub`. -/
def crGo (r : ℕ) (sizes : List ℕ) (poolSize : ℤ) (needed : ℕ) :
    ℕ → ℕ → ℤ → Option ℤ
  | 0, _, _ => none
  | fuel + 1, sub, total =>
    let mb := (List.range sizes.length).foldl
      (fun acc i => if sub.testBit i then (acc.1 + (sizes.getD i 0 : ℤ), acc.2 + 1)
                    else acc) ((0 : ℤ), (0 : ℕ))
    let remainingSize := poolSize - mb.1
    let total' := if remainingSize < 0 then total
      else if mb.2 % 2 = 0 then total + remainingSize ^ r else total - remainingSize ^ r
    if sub = 0 then some total'
    else crGo r sizes poolSize needed fuel ((sub - 1) &&& needed) total'

/-- `countRemaining(remLen, setSizes, currentMask)` from `src/options.js`.
`none` models the `RangeError` thrown when `currentMask` is out of range. -/
def countRemaining (remLen : ℕ) (setSizes : List ℕ) (currentMask : ℕ) : Option ℤ :=
  let k := setSizes.length
  let allMask := 2 ^ k - 1
  if currentMask ≤ allMask then
    let neededMask := allMask ^^^ currentMask
    crGo remLen setSizes (setSizes.sum : ℤ) neededMask (2 ^ k) neededMask 0
  else none

/-! ## Reference semantics for the inclusion–exclusion enumerations -/

/-- The guarded power `remaining ^ L`: the source skips terms with a
negative base (impossible for non-negative sizes, kept for faithfulness). -/
def gpow (L : ℕ) (x : ℤ) : ℤ := if 0 ≤ x then x ^ L else 0

/-- The sign `parity === 0 ? +1 : −1` used by `countValidSequences`. -/
def signOf (parity : ℕ) : ℤ := if parity = 0 then 1 else -1

/-- Denotation of a single stack frame of `countValidSequences`: the total
contribution of the subtree of subset choices below the frame. -/
def pieDfs (L k : ℕ) (sizes : List ℕ) (N : ℤ) (i : ℕ) (missing : ℤ) (parity : ℕ) : ℤ :=
  if i < k then
    pieDfs L k sizes N (i + 1) missing parity +
      pieDfs L k sizes N (i + 1) (missing + (sizes.getD i 0 : ℤ)) (parity ^^^ 1)
  else signOf parity * gpow L (N - missing)
termination_by k - i
decreasing_by all_goals omega

/-- Pops remaining for the subtree of one frame (`2^(k−i+1) − 1`). -/
def framePops (k : ℕ) (f : PieFrame) : ℕ := 2 ^ (k - f.i + 1) - 1

/-- Pops remaining for a whole stack. -/
def stackPops (k : ℕ) (st : List PieFrame) : ℕ := (st.map (framePops k)).sum

theorem cvsRun_eq_sum (L k : ℕ) (sizes : List ℕ) (N : ℤ) :
    ∀ (fuel : ℕ) (st : List PieFrame) (total : ℤ), stackPops k st < fuel →
      cvsRun L k sizes N fuel st total =
        some (total + (st.map (fun f => pieDfs L k sizes N f.i f.missing f.parity)).sum) := by
  intro fuel
  induction fuel with
  | zero => intro st total h; omega
  | succ fuel ih =>
    intro st total h
    match st with
    | [] => simp [cvsRun]
    | f :: rest =>
      by_cases hi : f.i < k
      · rw [cvsRun, if_pos hi, ih]
        · have hstep : pieDfs L k sizes N f.i f.missing f.parity =
              pieDfs L k sizes N (f.i + 1) f.missing f.parity +
                pieDfs L k sizes N (f.i + 1) (f.missing + (sizes.getD f.i 0 : ℤ))
                  (f.parity ^^^ 1) := by
            rw [pieDfs, if_pos hi]
          simp only [List.map_cons, List.sum_cons]
          rw [hstep]; ring_nf
        · have h1 : 1 ≤ 2 ^ (k - f.i) := Nat.one_le_two_pow
          have hk : k - (f.i + 1) + 1 = k - f.i := by omega
          have hk2 : k - f.i + 1 = (k - f.i) + 1 := rfl
          simp only [stackPops, List.map_cons, List.sum_cons, framePops] at h ⊢
          rw [hk]
          rw [hk2, pow_succ] at h
          omega
      · rw [cvsRun, if_neg hi, ih]
        · have hterm : (if 0 ≤ N - f.missing then
                (if f.parity = 0 then total + (N - f.missing) ^ L
                  else total - (N - f.missing) ^ L)
              else total) =
              total + pieDfs L k sizes N f.i f.missing f.parity := by
            rw [pieDfs, if_neg hi]
            by_cases h0 : 0 ≤ N - f.missing
            · by_cases hp : f.parity = 0
              · simp only [h0, hp, gpow, signOf, if_true, if_pos]; ring
              · simp only [h0, hp, gpow, signOf, if_true, if_false, if_pos, if_neg,
                  not_false_iff]; ring
            · simp [h0, gpow, signOf]
          simp only [List.map_cons, List.sum_cons]
          rw [hterm]; ring_nf
        · have h1 : 1 ≤ 2 ^ (k - f.i + 1) := Nat.one_le_two_pow
          simp only [stackPops, List.map_cons, List.sum_cons, framePops] at h ⊢
          omega

/-- `countValidSequences` equals the denotation of the initial frame. -/
theorem countValidSequences_eq_pieDfs (L : ℕ) (sizes : List ℕ) :
    countValidSequences L sizes =
      pieDfs L sizes.length sizes (sizes.sum : ℤ) 0 0 0 := by
  rw [countValidSequences, cvsRun_eq_sum]
  · simp
  · simp only [stackPops, List.map_cons, List.map_nil, List.sum_cons, List.sum_nil,
      framePops, Nat.sub_zero]
    have h1 : 1 ≤ 2 ^ (sizes.length + 1) := Nat.one_le_two_pow
    omega

/-- Splitting a sum over the powerset of `insert a s` (`a ∉ s`) into the
subsets avoiding `a` and those containing it. -/
theorem sum_powerset_insert_split {α M : Type} [DecidableEq α] [AddCommMonoid M]
    (s : Finset α) (a : α) (ha : a ∉ s) (f : Finset α → M) :
    ∑ T ∈ (insert a s).powerset, f T =
      ∑ T ∈ s.powerset, f T + ∑ T ∈ s.powerset, f (insert a T) := by
  rw [Finset.powerset_insert, Finset.sum_union, Finset.sum_image]
  · intro x hx y hy hxy
    have hax : a ∉ x := fun h => ha (Finset.mem_powerset.mp hx h)
    have hay : a ∉ y := fun h => ha (Finset.mem_powerset.mp hy h)
    rw [← Finset.erase_insert hax, ← Finset.erase_insert hay, hxy]
  · rw [Finset.disjoint_left]
    intro T hT hT'
    obtain ⟨U, _, hU⟩ := Finset.mem_image.mp hT'
    have : a ∈ T := hU ▸ Finset.mem_insert_self a U
    exact ha (Finset.mem_powerset.mp hT this)

/-- The DFS subtree denotation is the signed inclusion–exclusion sum over
subsets of the remaining indices `{i, …, k−1}`. -/
theorem pieDfs_eq_powerset (L k : ℕ) (sizes : List ℕ) (N : ℤ) :
    ∀ (n i : ℕ) (missing : ℤ) (parity : ℕ), k - i = n → parity ≤ 1 →
      pieDfs L k sizes N i missing parity =
        signOf parity * ∑ T ∈ (Finset.Ico i k).powerset,
          (-1) ^ T.card * gpow L (N - missing - ∑ t ∈ T, (sizes.getD t 0 : ℤ)) := by
  intro n
  induction n with
  | zero =>
    intro i missing parity hn _
    have hik : ¬ i < k := by omega
    rw [pieDfs, if_neg hik]
    have : Finset.Ico i k = ∅ := Finset.Ico_eq_empty (by omega)
    simp [this]
  | succ n ih =>
    intro i missing parity hn hp
    have hik : i < k := by omega
    rw [pieDfs, if_pos hik]
    rw [ih (i + 1) missing parity (by omega) hp,
      ih (i + 1) (missing + (sizes.getD i 0 : ℤ)) (parity ^^^ 1) (by omega)
        (by interval_cases parity <;> decide)]
    have hsign : signOf (parity ^^^ 1) = -signOf parity := by
      interval_cases parity <;> decide
    rw [hsign, ← Nat.Ico_insert_succ_left hik,
      sum_powerset_insert_split _ _ (by simp)]
    have hcongr : ∑ T ∈ (Finset.Ico (i + 1) k).powerset,
        (-1) ^ (insert i T).card *
          gpow L (N - missing - ∑ t ∈ insert i T, (sizes.getD t 0 : ℤ)) =
        ∑ T ∈ (Finset.Ico (i + 1) k).powerset,
          -((-1) ^ T.card *
            gpow L (N - (missing + (sizes.getD i 0 : ℤ)) - ∑ t ∈ T, (sizes.getD t 0 : ℤ))) := by
      apply Finset.sum_congr rfl
      intro T hT
      have hiT : i ∉ T := by
        intro h
        have := Finset.mem_powerset.mp hT h
        simp [Finset.mem_Ico] at this
      rw [Finset.card_insert_of_not_mem hiT, Finset.sum_insert hiT, pow_succ]
      ring_nf
    rw [hcongr, Finset.sum_neg_distrib]
    ring

/-- Summing `sizes.getD i 0` over all indices gives the list sum. -/
theorem sum_range_getD (sizes : List ℕ) :
    ∑ i ∈ Finset.range sizes.length, (sizes.getD i 0 : ℤ) = (sizes.sum : ℤ) := by
  induction sizes with
  | nil => simp
  | cons a l ih =>
    rw [List.length_cons, Finset.sum_range_succ']
    simp only [List.getD_cons_succ, List.getD_cons_zero, ih, List.sum_cons]
    push_cast
    ring

/-- A subset of the classes can never miss more than the whole pool. -/
theorem sum_getD_le (sizes : List ℕ) (T : Finset ℕ)
    (hT : T ⊆ Finset.range sizes.length) :
    ∑ t ∈ T, (sizes.getD t 0 : ℤ) ≤ (sizes.sum : ℤ) := by
  rw [← sum_range_getD]
  exact Finset.sum_le_sum_of_subset_of_nonneg hT (by intro i _ _; positivity)

/-- Claim C1, part 1 (general form): `countValidSequences` computes the
inclusion–exclusion sum over all subsets of the classes. -/
theorem countValidSequences_eq_subsetSum (L : ℕ) (sizes : List ℕ) :
    countValidSequences L sizes =
      ∑ S ∈ (Finset.range sizes.length).powerset,
        (-1) ^ S.card * ((sizes.sum : ℤ) - ∑ i ∈ S, (sizes.getD i 0 : ℤ)) ^ L := by
  rw [countValidSequences_eq_pieDfs,
    pieDfs_eq_powerset L sizes.length sizes (sizes.sum : ℤ) sizes.length 0 0 0
      (by omega) (by omega)]
  rw [show Finset.Ico 0 sizes.length = Finset.range sizes.length by
    rw [Finset.range_eq_Ico]]
  rw [signOf, if_pos rfl, one_mul]
  apply Finset.sum_congr rfl
  intro T hT
  have hle := sum_getD_le sizes T (Finset.mem_powerset.mp hT)
  rw [gpow, if_pos (by omega)]
  ring_nf

/-! ## Semantics of the submask loop of `countRemaining` -/

/-- Bitwise AND distributes over the binary digit decomposition. -/
theorem land_two_mul_add (a b x y : ℕ) (hx : x < 2) (hy : y < 2) :
    (2 * a + x) &&& (2 * b + y) = 2 * (a &&& b) + (x &&& y) := by
  have hxy : x &&& y < 2 := Nat.lt_of_le_of_lt Nat.and_le_left hx
  apply Nat.eq_of_testBit_eq
  intro i
  cases i with
  | zero =>
    rw [Nat.testBit_and, Nat.testBit_zero, Nat.testBit_zero, Nat.testBit_zero]
    have h1 : (2 * a + x) % 2 = x := by omega
    have h2 : (2 * b + y) % 2 = y := by omega
    have h3 : (2 * (a &&& b) + (x &&& y)) % 2 = x &&& y := by omega
    rw [h1, h2, h3]
    interval_cases x <;> interval_cases y <;> decide
  | succ i =>
    rw [Nat.testBit_and, Nat.testBit_succ, Nat.testBit_succ, Nat.testBit_succ]
    have h1 : (2 * a + x) / 2 = a := by omega
    have h2 : (2 * b + y) / 2 = b := by omega
    have h3 : (2 * (a &&& b) + (x &&& y)) / 2 = a &&& b := by omega
    rw [h1, h2, h3, Nat.testBit_and]

/-- A submask relation descends to the binary digit decomposition. -/
theorem submask_decomp {m needed : ℕ} (h : m &&& needed = m) :
    m / 2 &&& needed / 2 = m / 2 ∧ m % 2 ≤ needed % 2 := by
  have hm : 2 * (m / 2) + m % 2 = m := by omega
  have hn : 2 * (needed / 2) + needed % 2 = needed := by omega
  have hd := land_two_mul_add (m / 2) (needed / 2) (m % 2) (needed % 2)
    (Nat.mod_lt _ (by omega)) (Nat.mod_lt _ (by omega))
  rw [hm, hn, h] at hd
  have hb : m % 2 &&& needed % 2 < 2 :=
    Nat.lt_of_le_of_lt Nat.and_le_left (Nat.mod_lt _ (by omega))
  have h1 : m / 2 &&& needed / 2 = m / 2 ∧ m % 2 &&& needed % 2 = m % 2 := by omega
  refine ⟨h1.1, ?_⟩
  have := h1.2
  have h2 : m % 2 &&& needed % 2 ≤ needed % 2 := Nat.and_le_right
  omega

/-- The central stepping fact of the standard submask enumeration
`sub = (sub − 1) & needed`: every submask of `needed` strictly below a
non-zero submask `s` is at most `(s − 1) & needed`. -/
theorem submask_next : ∀ s : ℕ, ∀ {needed m : ℕ}, s &&& needed = s →
    m &&& needed = m → s ≠ 0 → m < s → m ≤ (s - 1) &&& needed := by
  intro s
  induction s using Nat.strong_induction_on with
  | _ s ih =>
    intro needed m hs hm hs0 hlt
    obtain ⟨hsd, hsb⟩ := submask_decomp hs
    obtain ⟨hmd, hmb⟩ := submask_decomp hm
    rcases Nat.mod_two_eq_zero_or_one s with hpar | hpar
    · -- `s` even: `s − 1 = 2·(s/2 − 1) + 1` and the low bit of `needed` fills in.
      have ha0 : s / 2 ≠ 0 := by omega
      have hs1 : s - 1 = 2 * (s / 2 - 1) + 1 := by omega
      have hsplit := land_two_mul_add (s / 2 - 1) (needed / 2) 1 (needed % 2)
        (by omega) (Nat.mod_lt _ (by omega))
      have hn : 2 * (needed / 2) + needed % 2 = needed := by omega
      rw [hn] at hsplit
      rw [hs1, hsplit]
      have h1n : 1 &&& needed % 2 = needed % 2 := by
        rcases Nat.mod_two_eq_zero_or_one needed with h | h <;> rw [h] <;> decide
      rw [h1n]
      have hrec : m / 2 ≤ (s / 2 - 1) &&& needed / 2 := by
        rcases Nat.eq_or_lt_of_le (Nat.le_of_lt_succ (by omega : m / 2 < s / 2 + 1)) with
          heq | hlt2
        · exact absurd heq (by omega)
        · exact ih (s / 2) (by omega) hsd hmd ha0 (by omega)
      omega
    · -- `s` odd: `(s − 1) & needed = s − 1` because `s − 1 = 2·(s/2) ⊆ needed`.
      have hs1 : s - 1 = 2 * (s / 2) + 0 := by omega
      have hsplit := land_two_mul_add (s / 2) (needed / 2) 0 (needed % 2)
        (by omega) (Nat.mod_lt _ (by omega))
      have hn : 2 * (needed / 2) + needed % 2 = needed := by omega
      rw [hn] at hsplit
      have h0n : 0 &&& needed % 2 = 0 := Nat.zero_and _
      rw [hs1, hsplit, h0n, hsd]
      omega

/-- The set of bit positions below `k` that are set in `m`. -/
def bitsOf (k m : ℕ) : Finset ℕ := (Finset.range k).filter (fun i => m.testBit i)

/-- One inclusion–exclusion term of `countRemaining`, as a function of the
submask `m` of excluded classes. -/
def crTerm (r : ℕ) (sizes : List ℕ) (N : ℤ) (m : ℕ) : ℤ :=
  let ms := ∑ i ∈ bitsOf sizes.length m, (sizes.getD i 0 : ℤ)
  if N - ms < 0 then 0 else (-1) ^ (bitsOf sizes.length m).card * (N - ms) ^ r

/-- The `missingSize`/`bits` accumulation loop of `countRemaining`. -/
theorem cr_foldl (sizes : List ℕ) (sub : ℕ) :
    ∀ (K : ℕ) (acc : ℤ × ℕ),
      (List.range K).foldl
        (fun acc i => if sub.testBit i then (acc.1 + (sizes.getD i 0 : ℤ), acc.2 + 1)
          else acc) acc =
      (acc.1 + ∑ i ∈ bitsOf K sub, (sizes.getD i 0 : ℤ), acc.2 + (bitsOf K sub).card) := by
  intro K
  induction K with
  | zero => intro acc; simp [bitsOf]
  | succ K ihK =>
    intro acc
    rw [List.range_succ, List.foldl_append, ihK]
    have hrange : bitsOf (K + 1) sub =
        if sub.testBit K then insert K (bitsOf K sub) else bitsOf K sub := by
      rw [bitsOf, bitsOf, Finset.range_succ, Finset.filter_insert]
    have hKnot : K ∉ bitsOf K sub := by
      simp [bitsOf]
    by_cases hbit : sub.testBit K
    · rw [hrange, if_pos hbit]
      simp only [List.foldl_cons, List.foldl_nil, if_pos hbit]
      rw [Finset.sum_insert hKnot, Finset.card_insert_of_not_mem hKnot]
      simp only [Prod.mk.injEq]
      exact ⟨by ring, by ring⟩
    · rw [hrange, if_neg hbit]
      simp only [List.foldl_cons, List.foldl_nil, if_neg hbit]

/-- Semantics of the submask loop: starting from a submask `sub` of
`needed`, the loop adds the terms of every submask of `needed` that is at
most `sub`. -/
theorem crGo_eq_sum (r : ℕ) (sizes : List ℕ) (N : ℤ) (needed : ℕ) :
    ∀ (fuel sub : ℕ) (total : ℤ), sub &&& needed = sub → sub < fuel →
      crGo r sizes N needed fuel sub total =
        some (total + ∑ m ∈ (Finset.range (sub + 1)).filter (fun m => m &&& needed = m),
          crTerm r sizes N m) := by
  intro fuel
  induction fuel with
  | zero => intro sub total _ h; omega
  | succ fuel ih =>
    intro sub total hsub hlt
    rw [crGo]
    rw [cr_foldl sizes sub sizes.length ((0 : ℤ), (0 : ℕ))]
    dsimp only
    have hterm : (if N - (0 + ∑ i ∈ bitsOf sizes.length sub, (sizes.getD i 0 : ℤ)) < 0
          then total
          else if (0 + (bitsOf sizes.length sub).card) % 2 = 0 then
            total + (N - (0 + ∑ i ∈ bitsOf sizes.length sub, (sizes.getD i 0 : ℤ))) ^ r
          else
            total - (N - (0 + ∑ i ∈ bitsOf sizes.length sub, (sizes.getD i 0 : ℤ))) ^ r) =
        total + crTerm r sizes N sub := by
      rw [crTerm]
      simp only [zero_add]
      by_cases h0 : N - ∑ i ∈ bitsOf sizes.length sub, (sizes.getD i 0 : ℤ) < 0
      · rw [if_pos h0, if_pos h0]; ring
      · rw [if_neg h0, if_neg h0]
        rcases Nat.even_or_odd (bitsOf sizes.length sub).card with he | ho
        · rw [if_pos (Nat.even_iff.mp he), he.neg_one_pow]; ring
        · rw [if_neg (by rw [Nat.odd_iff.mp ho]; omega), ho.neg_one_pow]; ring
    by_cases hz : sub = 0
    · subst hz
      rw [if_pos rfl]
      have hset : (Finset.range 1).filter (fun m => m &&& needed = m) = {0} := by
        rw [Finset.range_one]
        rw [Finset.filter_singleton, if_pos (Nat.zero_and needed)]
      simp only [hterm, hset, Finset.sum_singleton]
    · rw [if_neg hz]
      have hnext_sub : ((sub - 1) &&& needed) &&& needed = (sub - 1) &&& needed := by
        rw [Nat.and_assoc, Nat.and_self]
      have hnext_lt : (sub - 1) &&& needed < sub :=
        Nat.lt_of_le_of_lt Nat.and_le_left (by omega)
      rw [hterm, ih ((sub - 1) &&& needed) (total + crTerm r sizes N sub) hnext_sub (by omega)]
      congr 1
      have hset : (Finset.range (sub + 1)).filter (fun m => m &&& needed = m) =
          insert sub ((Finset.range (((sub - 1) &&& needed) + 1)).filter
            (fun m => m &&& needed = m)) := by
        ext m
        simp only [Finset.mem_insert, Finset.mem_filter, Finset.mem_range]
        constructor
        · rintro ⟨hmr, hmn⟩
          by_cases hms : m = sub
          · exact Or.inl hms
          · exact Or.inr ⟨by
              have := submask_next sub hsub hmn hz (by omega); omega, hmn⟩
        · rintro (rfl | ⟨hmr, hmn⟩)
          · exact ⟨by omega, hsub⟩
          · exact ⟨by omega, hmn⟩
      rw [hset, Finset.sum_insert (by
        simp only [Finset.mem_filter, Finset.mem_range]
        intro hc
        omega)]
      ring

/-- `countRemaining` as a sum of terms over the submasks of the needed
classes. -/
theorem countRemaining_eq_sum (r : ℕ) (sizes : List ℕ) (cm : ℕ)
    (h : cm ≤ 2 ^ sizes.length - 1) :
    countRemaining r sizes cm =
      some (∑ m ∈ (Finset.range (2 ^ sizes.length)).filter
          (fun m => m &&& ((2 ^ sizes.length - 1) ^^^ cm) = m),
        crTerm r sizes (sizes.sum : ℤ) m) := by
  have h2 : (1 : ℕ) ≤ 2 ^ sizes.length := Nat.one_le_two_pow
  rw [countRemaining]
  simp only [if_pos h]
  set needed := (2 ^ sizes.length - 1) ^^^ cm with hneed
  have hn_lt : needed < 2 ^ sizes.length :=
    Nat.xor_lt_two_pow (by omega) (by omega)
  rw [crGo_eq_sum r sizes (sizes.sum : ℤ) needed (2 ^ sizes.length) needed 0
    (Nat.and_self needed) hn_lt]
  congr 1
  rw [zero_add]
  apply Finset.sum_congr _ (fun m _ => rfl)
  ext m
  simp only [Finset.mem_filter, Finset.mem_range]
  constructor
  · rintro ⟨hmr, hmn⟩
    have : m ≤ needed := hmn ▸ Nat.and_le_right
    exact ⟨by omega, hmn⟩
  · rintro ⟨_, hmn⟩
    have : m ≤ needed := hmn ▸ Nat.and_le_right
    exact ⟨by omega, hmn⟩

/-- Splitting `Finset.range (a + b)` sums. -/
theorem sum_range_add_shift {M : Type} [AddCommMonoid M] (f : ℕ → M) (a : ℕ) :
    ∀ b : ℕ, ∑ i ∈ Finset.range (a + b), f i =
      ∑ i ∈ Finset.range a, f i + ∑ i ∈ Finset.range b, f (a + i) := by
  intro b
  induction b with
  | zero => simp
  | succ b ihb =>
    rw [← Nat.add_assoc, Finset.sum_range_succ, ihb, Finset.sum_range_succ]
    rw [add_assoc]

/-- Low bits of `2^K + m` agree with `m` when `m < 2^K`. -/
theorem testBit_two_pow_add {K m : ℕ} (hm : m < 2 ^ K) :
    ∀ i, i ≤ K → (2 ^ K + m).testBit i = if i = K then true else m.testBit i := by
  intro i hi
  have hdiv : (2 ^ K + m) / 2 ^ i = 2 ^ (K - i) + m / 2 ^ i := by
    have hKi : 2 ^ K = 2 ^ i * 2 ^ (K - i) := by
      rw [← pow_add]
      congr 1
      omega
    rw [hKi, Nat.mul_add_div (Nat.pos_pow_of_pos i (by omega))]
  by_cases hik : i = K
  · subst hik
    have hm0 : m / 2 ^ i = 0 := Nat.div_eq_of_lt hm
    rw [if_pos rfl, Nat.testBit_to_div_mod, hdiv, hm0]
    simp
  · have hlt : i < K := by omega
    rw [if_neg hik, Nat.testBit_to_div_mod, Nat.testBit_to_div_mod, hdiv]
    have : 2 ^ (K - i) = 2 * 2 ^ (K - i - 1) := by
      rw [← pow_succ']
      congr 1
      omega
    rw [this]
    have hmod : (2 * 2 ^ (K - i - 1) + m / 2 ^ i) % 2 = m / 2 ^ i % 2 := by omega
    rw [hmod]

/-- Reindexing a sum over all `2^K` masks as a sum over the powerset of
`{0, …, K−1}` via the bit-set bijection. -/
theorem sum_range_two_pow_eq_powerset (G : Finset ℕ → ℤ) :
    ∀ K : ℕ, ∑ m ∈ Finset.range (2 ^ K), G (bitsOf K m) =
      ∑ T ∈ (Finset.range K).powerset, G T := by
  intro K
  induction K generalizing G with
  | zero =>
    have h0 : bitsOf 0 0 = ∅ := by simp [bitsOf]
    simp [h0]
  | succ K ihK =>
    have hsplit : (2 : ℕ) ^ (K + 1) = 2 ^ K + 2 ^ K := by ring
    rw [hsplit, sum_range_add_shift]
    have hlow : ∀ m ∈ Finset.range (2 ^ K), G (bitsOf (K + 1) m) = G (bitsOf K m) := by
      intro m hm
      rw [Finset.mem_range] at hm
      congr 1
      rw [bitsOf, bitsOf, Finset.range_succ, Finset.filter_insert,
        if_neg (by rw [Nat.testBit_lt_two_pow hm]; exact Bool.false_ne_true)]
    have hhigh : ∀ m ∈ Finset.range (2 ^ K), G (bitsOf (K + 1) (2 ^ K + m)) =
        G (insert K (bitsOf K m)) := by
      intro m hm
      rw [Finset.mem_range] at hm
      congr 1
      rw [bitsOf, bitsOf, Finset.range_succ, Finset.filter_insert,
        if_pos (by rw [testBit_two_pow_add hm K (le_refl K), if_pos rfl])]
      congr 1
      apply Finset.filter_congr
      intro i hi
      rw [Finset.mem_range] at hi
      rw [testBit_two_pow_add hm i (by omega), if_neg (by omega)]
    rw [Finset.sum_congr rfl hlow, Finset.sum_congr rfl hhigh, ihK,
      ihK (fun T => G (insert K T))]
    rw [Finset.range_succ, sum_powerset_insert_split _ _ (by simp)]

/-- With no class yet satisfied, `countRemaining` performs the full
inclusion–exclusion of `countValidSequences`. -/
theorem countRemaining_zero_mask (r : ℕ) (sizes : List ℕ) :
    countRemaining r sizes 0 = some (countValidSequences r sizes) := by
  have h2 : (1 : ℕ) ≤ 2 ^ sizes.length := Nat.one_le_two_pow
  rw [countRemaining_eq_sum r sizes 0 (by omega), Nat.xor_zero]
  congr 1
  have hfilter : (Finset.range (2 ^ sizes.length)).filter
      (fun m => m &&& (2 ^ sizes.length - 1) = m) = Finset.range (2 ^ sizes.length) := by
    apply Finset.filter_true_of_mem
    intro m hm
    rw [Finset.mem_range] at hm
    rw [Nat.and_pow_two_sub_one_eq_mod, Nat.mod_eq_of_lt hm]
  rw [hfilter, countValidSequences_eq_subsetSum]
  have hre := sum_range_two_pow_eq_powerset
    (fun T => if (sizes.sum : ℤ) - ∑ i ∈ T, (sizes.getD i 0 : ℤ) < 0 then 0
      else (-1) ^ T.card *
        ((sizes.sum : ℤ) - ∑ i ∈ T, (sizes.getD i 0 : ℤ)) ^ r) sizes.length
  refine Eq.trans (Eq.trans ?_ hre) ?_
  · exact Finset.sum_congr rfl (fun m _ => rfl)
  · apply Finset.sum_congr rfl
    intro T hT
    have hle := sum_getD_le sizes T (Finset.mem_powerset.mp hT)
    rw [if_neg (by omega)]

/-- With every class satisfied, `countRemaining` counts the unconstrained
sequences `poolSize ^ remLen`. -/
theorem countRemaining_full_mask (r : ℕ) (sizes : List ℕ) :
    countRemaining r sizes (2 ^ sizes.length - 1) = some ((sizes.sum : ℤ) ^ r) := by
  rw [countRemaining_eq_sum r sizes (2 ^ sizes.length - 1) (le_refl _), Nat.xor_self]
  congr 1
  have hfilter : (Finset.range (2 ^ sizes.length)).filter (fun m => m &&& 0 = m) = {0} := by
    ext m
    simp only [Finset.mem_filter, Finset.mem_range, Finset.mem_singleton, Nat.and_zero]
    constructor
    · rintro ⟨_, h⟩; omega
    · rintro rfl; exact ⟨Nat.pos_pow_of_pos _ (by omega), rfl⟩
  rw [hfilter, Finset.sum_singleton, crTerm]
  have hbits : bitsOf sizes.length 0 = ∅ := by
    simp [bitsOf]
  rw [hbits]
  simp only [Finset.sum_empty, Finset.card_empty, pow_zero, sub_zero, one_mul]
  rw [if_neg (not_lt.mpr (by positivity))]

/-- The set of low bits of `m ^^^ 2^j` is the set for `m` with `j` toggled. -/
theorem bitsOf_xor_two_pow {k m j : ℕ} (hj : j < k) :
    bitsOf k (m ^^^ 2 ^ j) =
      if m.testBit j then (bitsOf k m).erase j else insert j (bitsOf k m) := by
  by_cases hb : m.testBit j
  · rw [if_pos hb]
    ext i
    simp only [bitsOf, Finset.mem_erase, Finset.mem_filter, Finset.mem_range,
      Nat.testBit_xor, Nat.testBit_two_pow]
    by_cases hij : i = j
    · subst hij
      simp [hb]
    · simp only [hij, Ne, not_false_iff, true_and]
      rw [decide_eq_false (fun h => hij h.symm)]
      simp [and_comm]
  · rw [if_neg hb]
    ext i
    simp only [bitsOf, Finset.mem_insert, Finset.mem_filter, Finset.mem_range,
      Nat.testBit_xor, Nat.testBit_two_pow]
    by_cases hij : i = j
    · subst hij
      simp [hb, hj]
    · rw [decide_eq_false (fun h => hij h.symm)]
      simp [hij]

/-- At exponent 0, `countRemaining` is the indicator that no class is
still needed: it returns 1 exactly on the full mask and 0 otherwise.
This is what forces the combinatorial unranking to have covered every
class by the time it fills the last position. -/
theorem countRemaining_exp_zero (sizes : List ℕ) (cm : ℕ)
    (h : cm ≤ 2 ^ sizes.length - 1) :
    countRemaining 0 sizes cm =
      some (if cm = 2 ^ sizes.length - 1 then 1 else 0) := by
  have h2 : (1 : ℕ) ≤ 2 ^ sizes.length := Nat.one_le_two_pow
  rw [countRemaining_eq_sum 0 sizes cm h]
  congr 1
  have hcr : ∀ m : ℕ, crTerm 0 sizes (sizes.sum : ℤ) m =
      (-1) ^ (bitsOf sizes.length m).card := by
    intro m
    rw [crTerm]
    have hsub : bitsOf sizes.length m ⊆ Finset.range sizes.length :=
      Finset.filter_subset _ _
    have hle := sum_getD_le sizes _ hsub
    rw [if_neg (by omega)]
    simp
  rw [Finset.sum_congr rfl (fun m _ => hcr m)]
  set needed := (2 ^ sizes.length - 1) ^^^ cm with hneed
  by_cases hn0 : needed = 0
  · have hcm : cm = 2 ^ sizes.length - 1 := (Nat.xor_eq_zero.mp hn0).symm
    rw [if_pos hcm]
    have hfilter : (Finset.range (2 ^ sizes.length)).filter
        (fun m => m &&& needed = m) = {0} := by
      ext m
      simp only [Finset.mem_filter, Finset.mem_range, Finset.mem_singleton, hn0,
        Nat.and_zero]
      constructor
      · rintro ⟨_, hm⟩; omega
      · rintro rfl; exact ⟨Nat.pos_pow_of_pos _ (by omega), rfl⟩
    rw [hfilter, Finset.sum_singleton]
    have : bitsOf sizes.length 0 = ∅ := by simp [bitsOf]
    rw [this]
    simp
  · have hcm : ¬ cm = 2 ^ sizes.length - 1 := by
      intro hc
      exact hn0 (by rw [hneed, hc, Nat.xor_self])
    rw [if_neg hcm]
    have hn_lt : needed < 2 ^ sizes.length :=
      Nat.xor_lt_two_pow (by omega) (by omega)
    -- a set bit of `needed` to toggle
    have hex : ∃ j, needed.testBit j = true := by
      by_contra hall
      push_neg at hall
      exact hn0 (Nat.eq_of_testBit_eq (fun i => by
        rw [Nat.zero_testBit]
        exact Bool.eq_false_iff.mpr (hall i)))
    obtain ⟨j, hjbit⟩ := hex
    have hjk : j < sizes.length := by
      by_contra hge
      push_neg at hge
      have : needed < 2 ^ j :=
        Nat.lt_of_lt_of_le hn_lt (Nat.pow_le_pow_right (by omega) hge)
      rw [Nat.testBit_lt_two_pow this] at hjbit
      exact Bool.false_ne_true hjbit
    have hpow : 2 ^ j &&& needed = 2 ^ j := by
      apply Nat.eq_of_testBit_eq
      intro i
      rw [Nat.testBit_and, Nat.testBit_two_pow]
      by_cases hij : j = i
      · subst hij; rw [hjbit]; simp
      · simp [hij]
    apply Finset.sum_involution (fun m _ => m ^^^ 2 ^ j)
    · -- paired terms cancel
      intro m hm
      simp only [Finset.mem_filter, Finset.mem_range] at hm
      rw [bitsOf_xor_two_pow hjk]
      by_cases hb : m.testBit j
      · rw [if_pos hb]
        have hjmem : j ∈ bitsOf sizes.length m := by
          simp only [bitsOf, Finset.mem_filter, Finset.mem_range]
          exact ⟨hjk, hb⟩
        have hcard : 1 ≤ (bitsOf sizes.length m).card :=
          Finset.card_pos.mpr ⟨j, hjmem⟩
        obtain ⟨d, hd⟩ : ∃ d, (bitsOf sizes.length m).card = d + 1 :=
          ⟨(bitsOf sizes.length m).card - 1, by omega⟩
        rw [Finset.card_erase_of_mem hjmem, hd]
        simp only [Nat.add_sub_cancel]
        rw [pow_succ]
        ring
      · rw [if_neg hb]
        have hjmem : j ∉ bitsOf sizes.length m := by
          simp only [bitsOf, Finset.mem_filter, Finset.mem_range]
          intro hc
          exact hb hc.2
        rw [Finset.card_insert_of_not_mem hjmem, pow_succ]
        ring
    · -- no fixed point contributes
      intro m hm _
      intro heq
      have hb : (m ^^^ 2 ^ j).testBit j = m.testBit j :=
        congrArg (fun x => Nat.testBit x j) heq
      have hjj : Nat.testBit (2 ^ j) j = true := by
        rw [Nat.testBit_two_pow]
        simp
      rw [Nat.testBit_xor, hjj, Bool.xor_true] at hb
      cases hmb : m.testBit j <;> rw [hmb] at hb <;> simp at hb
    · -- toggling is an involution
      intro m hm
      exact Nat.xor_cancel_right _ _
    · -- the toggle stays inside the submask set
      intro m hm
      simp only [Finset.mem_filter, Finset.mem_range] at hm ⊢
      constructor
      · exact Nat.xor_lt_two_pow hm.1 (Nat.pow_lt_pow_right (by omega) hjk)
      · rw [Nat.and_xor_distrib_right, hm.2, hpow]

/-- Claim C7: `countRemaining` applies inclusion–exclusion only over the
classes unset in `satisfiedMask`: with mask 0 it agrees with
`countValidSequences`, and with every class satisfied it counts
`poolSize ^ remLen`. -/
theorem claim_C7_countRemaining_consistency (remLen : ℕ) (sizes : List ℕ) :
    countRemaining remLen sizes 0 = some (countValidSequences remLen sizes) ∧
      countRemaining remLen sizes (2 ^ sizes.length - 1) =
        some ((sizes.sum : ℤ) ^ remLen) :=
  ⟨countRemaining_zero_mask remLen sizes, countRemaining_full_mask remLen sizes⟩

/-! ## `bigIntLog2` (EntropyAnalyzer)

The source computes the bit length of `n` from its hexadecimal string:
`bitLen = (hex.length − 1)·4 + (⌊log2(firstNibble)⌋ + 1)`.  The number of
hex digits of `n ≥ 1` is `log₁₆(n) + 1` and the leading digit is
`n / 16^(log₁₆ n)`; `⌊log2⌋` on `1 … 15` is `Nat.log2`. -/

/-- Length of the hexadecimal representation of `n` (`n.toString(16).length`). -/
def hexLen (n : ℕ) : ℕ := Nat.log 16 n + 1

/-- The leading hexadecimal digit (`parseInt(hex[0], 16)`). -/
def firstNibble (n : ℕ) : ℕ := n / 16 ^ (hexLen n - 1)

/-- Bits occupied by the leading hex digit (`Math.floor(Math.log2(firstNibble)) + 1`). -/
def firstBits (n : ℕ) : ℕ := Nat.log2 (firstNibble n) + 1

/-- The bit length computed by `bigIntLog2`. -/
def bitLen (n : ℕ) : ℕ := (hexLen n - 1) * 4 + firstBits n

/-- `bigIntLog2(n)` from `src/options.js`: `0` for `n ≤ 0`; the direct
logarithm when the bit length is at most 53; otherwise the logarithm of
the top 53 bits plus the shift.  `Math.log2` is modelled as `Real.logb 2`. -/
noncomputable def bigIntLog2 (n : ℤ) : ℝ :=
  if n ≤ 0 then 0
  else if bitLen n.toNat ≤ 53 then Real.logb 2 (n.toNat : ℝ)
  else Real.logb 2 ((n.toNat >>> (bitLen n.toNat - 53) : ℕ) : ℝ)
    + ((bitLen n.toNat - 53 : ℕ) : ℝ)

/-- The hex-string bit-length computation is the true bit length. -/
theorem bitLen_eq (n : ℕ) (hn : 1 ≤ n) : bitLen n = Nat.log2 n + 1 := by
  have h16 : (1 : ℕ) < 16 := by omega
  set e := Nat.log 16 n with he
  have hefold : hexLen n - 1 = e := by rw [hexLen]; omega
  have hpe : (0 : ℕ) < 16 ^ e := Nat.pos_pow_of_pos _ (by omega)
  set f := n / 16 ^ e with hf
  have hfn : firstNibble n = f := by rw [firstNibble, hefold]
  have hf1 : 1 ≤ f := by
    rw [hf]
    exact Nat.one_le_div_iff hpe |>.mpr (Nat.pow_log_le_self 16 (by omega))
  have hf16 : f < 16 := by
    rw [hf]
    apply Nat.div_lt_of_lt_mul
    calc n < 16 ^ (e + 1) := Nat.lt_pow_succ_log_self h16 n
    _ = 16 ^ e * 16 := by rw [pow_succ]
  have hlow : 2 ^ (4 * e + Nat.log2 f) ≤ n := by
    calc 2 ^ (4 * e + Nat.log2 f) = 2 ^ (Nat.log2 f) * 16 ^ e := by
          rw [pow_add, mul_comm]
          congr 1
          rw [show (16 : ℕ) = 2 ^ 4 from rfl, ← pow_mul]
      _ ≤ f * 16 ^ e := by
          exact Nat.mul_le_mul_right _ (Nat.log2_self_le (by omega))
      _ ≤ n := by
          rw [hf]
          exact Nat.div_mul_le_self n _
  have hhigh : n < 2 ^ (4 * e + Nat.log2 f + 1) := by
    have hr : n % 16 ^ e < 16 ^ e := Nat.mod_lt _ hpe
    calc n < (f + 1) * 16 ^ e := by
          rw [hf, add_mul, one_mul]
          calc n = 16 ^ e * (n / 16 ^ e) + n % 16 ^ e := (Nat.div_add_mod _ _).symm
            _ < 16 ^ e * (n / 16 ^ e) + 16 ^ e := by omega
            _ = n / 16 ^ e * 16 ^ e + 16 ^ e := by ring
      _ ≤ 2 ^ (Nat.log2 f + 1) * 16 ^ e :=
          Nat.mul_le_mul_right _ (Nat.succ_le_of_lt Nat.lt_log2_self)
      _ = 2 ^ (4 * e + Nat.log2 f + 1) := by
          rw [show (16 : ℕ) = 2 ^ 4 from rfl, ← pow_mul, ← pow_add]
          congr 1
          ring
  have hlog : Nat.log2 n = 4 * e + Nat.log2 f := by
    rw [Nat.log2_eq_log_two]
    exact Nat.log_eq_of_pow_le_of_lt_pow hlow hhigh
  rw [bitLen, hefold, firstBits, hfn, hlog]
  ring

/-- `bigIntLog2` is exact on powers of two. -/
theorem bigIntLog2_two_pow (a : ℕ) : bigIntLog2 ((2 : ℤ) ^ a) = (a : ℝ) := by
  have hpos : (0 : ℤ) < 2 ^ a := by positivity
  have htn : ((2 : ℤ) ^ a).toNat = 2 ^ a := by
    rw [show ((2 : ℤ) ^ a) = ((2 ^ a : ℕ) : ℤ) by push_cast; ring, Int.toNat_natCast]
  have hlog2 : Nat.log2 (2 ^ a) = a := by
    rw [Nat.log2_eq_log_two]
    exact Nat.log_pow (by omega) a
  have hbl : bitLen (2 ^ a : ℕ) = a + 1 := by
    rw [bitLen_eq _ Nat.one_le_two_pow, hlog2]
  rw [bigIntLog2, if_neg (not_le.mpr hpos), htn, hbl]
  by_cases hle : a + 1 ≤ 53
  · rw [if_pos hle]
    rw [show ((2 ^ a : ℕ) : ℝ) = (2 : ℝ) ^ a by push_cast; ring, Real.logb_pow,
      Real.logb_self_eq_one (by norm_num), mul_one]
  · rw [if_neg hle]
    have hsh : 2 ^ a >>> (a + 1 - 53) = 2 ^ 52 := by
      rw [Nat.shiftRight_eq_div_pow, Nat.pow_div (by omega) (by omega)]
      congr 1
      omega
    rw [hsh, show ((2 ^ 52 : ℕ) : ℝ) = (2 : ℝ) ^ 52 by push_cast; ring,
      Real.logb_pow, Real.logb_self_eq_one (by norm_num), mul_one]
    have : (a + 1 - 53 : ℕ) = a - 52 := by omega
    rw [this]
    have ha52 : 52 ≤ a := by omega
    rw [Nat.cast_sub ha52]
    push_cast
    ring

/-- Claim C9: `bigIntLog2` is the direct logarithm for bit lengths up to
53 and the top-53-bits logarithm plus the shift beyond that, and is exact
on the powers `2^10`, `2^53`, `2^54`, `2^500`. -/
theorem claim_C9_bigIntLog2 :
    (∀ n : ℤ, 0 < n → Nat.log2 n.toNat + 1 ≤ 53 →
      bigIntLog2 n = Real.logb 2 (n.toNat : ℝ)) ∧
    (∀ n : ℤ, 0 < n → 53 < Nat.log2 n.toNat + 1 →
      bigIntLog2 n = Real.logb 2 ((n.toNat >>> (Nat.log2 n.toNat + 1 - 53) : ℕ) : ℝ)
        + ((Nat.log2 n.toNat + 1 - 53 : ℕ) : ℝ)) ∧
    bigIntLog2 ((2 : ℤ) ^ 10) = 10 ∧ bigIntLog2 ((2 : ℤ) ^ 53) = 53 ∧
    bigIntLog2 ((2 : ℤ) ^ 54) = 54 ∧ bigIntLog2 ((2 : ℤ) ^ 500) = 500 := by
  refine ⟨?_, ?_, ?_, ?_, ?_, ?_⟩
  · intro n hn hbl
    have h1 : 1 ≤ n.toNat := by omega
    rw [bigIntLog2, if_neg (by omega)]
    simp only [bitLen_eq n.toNat h1]
    rw [if_pos hbl]
  · intro n hn hbl
    have h1 : 1 ≤ n.toNat := by omega
    rw [bigIntLog2, if_neg (by omega)]
    simp only [bitLen_eq n.toNat h1]
    rw [if_neg (by omega)]
  · exact_mod_cast bigIntLog2_two_pow 10
  · exact_mod_cast bigIntLog2_two_pow 53
  · exact_mod_cast bigIntLog2_two_pow 54
  · exact_mod_cast bigIntLog2_two_pow 500

/-- Claim C9 witness: the general branch statements instantiated at
`n = 5` (bit length 3) and `n = 2^60` (bit length 61). -/
theorem claim_C9_bigIntLog2_witness :
    (0 : ℤ) < 5 ∧ Nat.log2 (5 : ℤ).toNat + 1 ≤ 53 ∧
      bigIntLog2 5 = Real.logb 2 (((5 : ℤ).toNat : ℕ) : ℝ) ∧
    ((0 : ℤ) < 2 ^ 60 ∧ 53 < Nat.log2 ((2 : ℤ) ^ 60).toNat + 1 ∧
      bigIntLog2 ((2 : ℤ) ^ 60) =
        Real.logb 2 ((((2 : ℤ) ^ 60).toNat >>>
            (Nat.log2 ((2 : ℤ) ^ 60).toNat + 1 - 53) : ℕ) : ℝ)
          + ((Nat.log2 ((2 : ℤ) ^ 60).toNat + 1 - 53 : ℕ) : ℝ)) := by
  have h5 : Nat.log2 (5 : ℤ).toNat = 2 := by
    rw [show ((5 : ℤ).toNat) = 5 from rfl, Nat.log2_eq_log_two]
    exact Nat.log_eq_of_pow_le_of_lt_pow (by norm_num) (by norm_num)
  have h60 : Nat.log2 ((2 : ℤ) ^ 60).toNat = 60 := by
    rw [show (((2 : ℤ) ^ 60).toNat) = 2 ^ 60 by
        rw [show ((2 : ℤ) ^ 60) = ((2 ^ 60 : ℕ) : ℤ) by norm_num,
          Int.toNat_natCast],
      Nat.log2_eq_log_two]
    exact Nat.log_pow (by omega) 60
  exact ⟨by decide, by omega,
    claim_C9_bigIntLog2.1 5 (by decide) (by omega),
    by positivity, by omega,
    claim_C9_bigIntLog2.2.1 ((2 : ℤ) ^ 60) (by positivity) (by omega)⟩

/-- Claim C1: `countValidSequences(L, sizes)` is the inclusion–exclusion
sum over all subsets of the classes of `(−1)^|S| (N − Σ_{i∈S} sizes i)^L`,
and in particular `countValidSequences(5, [2,3]) = 2850`. -/
theorem claim_C1_countValidSequences (L : ℕ) (sizes : List ℕ) :
    countValidSequences L sizes =
      (∑ S ∈ (Finset.range sizes.length).powerset,
        (-1) ^ S.card * ((sizes.sum : ℤ) - ∑ i ∈ S, (sizes.getD i 0 : ℤ)) ^ L) ∧
      countValidSequences 5 [2, 3] = 2850 :=
  ⟨countValidSequences_eq_subsetSum L sizes, by decide⟩

/-! ## `calculateShannonEntropyGuaranteed` and `calculateEntropy`
(EntropyAnalyzer)

The Shannon function is a direct transcription of the source into `ℝ`:
`Math.log2 = Real.logb 2`, `Math.log = Real.log`, `Math.log1p(-p) =
Real.log (1 - p)`, `Math.exp = Real.exp`; `lnFact[j] = Σ_{i=1..j} ln i`;
the running `maxLn` of the log-sum-exp pass is the supremum over
`j = 0 … n`. -/

/-- `calculateShannonEntropyGuaranteed(L, setSizes)` from `src/options.js`
(the `Number.isInteger` guard is vacuous at type `ℤ`). -/
noncomputable def calculateShannonEntropyGuaranteed (L : ℤ) (setSizes : List ℕ) : ℝ :=
  let k := setSizes.length
  let N := setSizes.sum
  if k = 0 ∨ N ≤ 0 ∨ L < (k : ℤ) then 0
  else if L < 0 then 0
  else if setSizes.any (fun s => s ≤ 0) then 0
  else
    let n := (L - (k : ℤ)).toNat
    let base : ℝ :=
      (∑ j ∈ Finset.range k, Real.logb 2 ((L : ℝ) - (k : ℝ) + 1 + (j : ℝ)))
        + (n : ℝ) * Real.logb 2 (N : ℝ)
        + (setSizes.map (fun s => if 0 < s then Real.logb 2 (s : ℝ) else 0)).sum
    let lnFact : ℕ → ℝ := fun j => ∑ i ∈ Finset.range j, Real.log ((i : ℝ) + 1)
    let expTerm : ℕ → ℝ := fun size =>
      let p : ℝ := (size : ℝ) / (N : ℝ)
      if p ≤ 0 then 0
      else if 1 ≤ p then Real.logb 2 ((n : ℝ) + 1)
      else
        let lnProb : ℕ → ℝ := fun j =>
          (lnFact n - lnFact j - lnFact (n - j)) + (j : ℝ) * Real.log p
            + ((n : ℝ) - (j : ℝ)) * Real.log (1 - p)
        let maxLn : ℝ := (Finset.range (n + 1)).sup' Finset.nonempty_range_succ lnProb
        let sumW := ∑ j ∈ Finset.range (n + 1), Real.exp (lnProb j - maxLn)
        let sumWL := ∑ j ∈ Finset.range (n + 1),
          Real.exp (lnProb j - maxLn) * Real.logb 2 ((j : ℝ) + 1)
        if 0 < sumW then sumWL / sumW else 0
    max 0 (base - (setSizes.map expTerm).sum)

/-- `calculateEntropy(len, poolSize, setSizes, forceEach, method)` from
`src/options.js` (the `Number.isFinite` guards are vacuous at type `ℤ`). -/
noncomputable def calculateEntropy (len poolSize : ℤ) (setSizes : List ℕ)
    (forceEach : Bool) (method : String) : ℝ :=
  if len ≤ 0 ∨ poolSize ≤ 0 then 0
  else if method = "guaranteed_inclusion" ∧ forceEach = true then
    calculateShannonEntropyGuaranteed len setSizes
  else if forceEach = false then bigIntLog2 (poolSize ^ len.toNat)
  else
    let totalValid := countValidSequences len.toNat setSizes
    if totalValid ≤ 0 then 0 else bigIntLog2 totalValid

/-- Claim C5: `calculateEntropy` returns 0 for non-positive length or
pool, delegates to the Shannon formula exactly for the biased
guaranteed-inclusion method under `forceEach`, is the Hartley entropy of
the unconstrained space `poolSize^L` when `forceEach` is false, and is
otherwise the Hartley entropy of the constrained count (0 when that
count is 0). -/
theorem claim_C5_calculateEntropy (len poolSize : ℤ) (sizes : List ℕ)
    (fe : Bool) (m : String) :
    ((len ≤ 0 ∨ poolSize ≤ 0) → calculateEntropy len poolSize sizes fe m = 0) ∧
    (0 < len → 0 < poolSize → m = "guaranteed_inclusion" → fe = true →
      calculateEntropy len poolSize sizes fe m =
        calculateShannonEntropyGuaranteed len sizes) ∧
    (0 < len → 0 < poolSize → fe = false →
      calculateEntropy len poolSize sizes fe m = bigIntLog2 (poolSize ^ len.toNat)) ∧
    (0 < len → 0 < poolSize → fe = true → m ≠ "guaranteed_inclusion" →
      calculateEntropy len poolSize sizes fe m =
        (if countValidSequences len.toNat sizes = 0 then 0
          else bigIntLog2 (countValidSequences len.toNat sizes))) := by
  refine ⟨?_, ?_, ?_, ?_⟩
  · intro h
    rw [calculateEntropy, if_pos h]
  · intro h1 h2 hm hfe
    rw [calculateEntropy, if_neg (by omega), if_pos ⟨hm, hfe⟩]
  · intro h1 h2 hfe
    rw [calculateEntropy, if_neg (by omega),
      if_neg (by rw [hfe]; rintro ⟨_, h⟩; exact Bool.false_ne_true h), if_pos hfe]
  · intro h1 h2 hfe hm
    rw [calculateEntropy, if_neg (by omega),
      if_neg (by rintro ⟨h, _⟩; exact hm h),
      if_neg (by rw [hfe]; intro h; exact Bool.false_ne_true h.symm)]
    by_cases hv : countValidSequences len.toNat sizes ≤ 0
    · rcases Nat.lt_or_ge 0 1 with _ | _
      · by_cases hv0 : countValidSequences len.toNat sizes = 0
        · rw [if_pos hv, if_pos hv0]
        · rw [if_pos hv, if_neg hv0, bigIntLog2, if_pos hv]
      · omega
    · rw [if_neg hv, if_neg (by omega)]

/-- Claim C5 witness: the four branches at concrete inputs. -/
theorem claim_C5_calculateEntropy_witness :
    ((-1 : ℤ) ≤ 0 ∨ (5 : ℤ) ≤ 0) ∧
    calculateEntropy (-1) 5 [2, 3] true "rejection_sampling" = 0 ∧
    ((0 : ℤ) < 5 ∧
      calculateEntropy 5 5 [2, 3] true "guaranteed_inclusion" =
        calculateShannonEntropyGuaranteed 5 [2, 3]) ∧
    calculateEntropy 5 5 [2, 3] false "rejection_sampling" =
      bigIntLog2 ((5 : ℤ) ^ (5 : ℤ).toNat) ∧
    calculateEntropy 5 5 [2, 3] true "rejection_sampling" =
      (if countValidSequences (5 : ℤ).toNat [2, 3] = 0 then 0
        else bigIntLog2 (countValidSequences (5 : ℤ).toNat [2, 3])) :=
  ⟨Or.inl (by decide),
    (claim_C5_calculateEntropy (-1) 5 [2, 3] true "rejection_sampling").1
      (Or.inl (by decide)),
    ⟨by decide,
      (claim_C5_calculateEntropy 5 5 [2, 3] true "guaranteed_inclusion").2.1
        (by decide) (by decide) rfl rfl⟩,
    (claim_C5_calculateEntropy 5 5 [2, 3] false "rejection_sampling").2.2.1
      (by decide) (by decide) rfl,
    (claim_C5_calculateEntropy 5 5 [2, 3] true "rejection_sampling").2.2.2
      (by decide) (by decide) rfl (by decide)⟩

/-! ## RandomSource -/

/-- Accepted-draw model of `getSecureRandomInt(max)`: the value of the
`ctr`-th accepted draw under oracle `R`.  For `max ≥ 2` the rejection
sampler returns `x % max` for the first 32-bit `x` below the acceptance
limit; as `R` ranges over all oracles the result ranges over exactly
`[0, max)`.  `max ≤ 1` returns 0 as in the source.  (Termination of the
rejection loop itself is analysed via `gsriGo` below.) -/
def randInt (R : ℕ → ℕ) (ctr : ℕ) (max : ℕ) : ℕ :=
  if max ≤ 1 then 0 else R ctr % max

/-- Accepted-draw model of `getSecureRandomBigInt(maxExclusive)`:
`maxExclusive ≤ 1` returns 0, otherwise a value in `[0, maxExclusive)`. -/
def randBig (R : ℕ → ℕ) (ctr : ℕ) (maxExclusive : ℤ) : ℤ :=
  if maxExclusive ≤ 1 then 0 else (R ctr : ℤ) % maxExclusive

/-- `limit = Math.floor(RANGE / max) * max` from `getSecureRandomInt`,
with `RANGE = 2^32`. -/
def gsriLimit (max : ℕ) : ℕ := 2 ^ 32 / max * max

/-- The `do { x = draw() } while (x ≥ limit)` rejection loop of
`getSecureRandomInt`: the `n`-th 32-bit draw is `R n % 2^32`; `none`
means the loop was still running after `fuel` draws. -/
def gsriGo (R : ℕ → ℕ) (limit : ℕ) : ℕ → ℕ → Option ℕ
  | 0, _ => none
  | fuel + 1, n =>
    if R n % 2 ^ 32 < limit then some (R n % 2 ^ 32)
    else gsriGo R limit fuel (n + 1)

/-- `getSecureRandomInt(max)` from `src/options.js` with the rejection
loop made explicit (draws start at index `n`). -/
def getSecureRandomIntFuel (R : ℕ → ℕ) (n max fuel : ℕ) : Option ℕ :=
  if max = 0 then some 0
  else if max = 1 then some 0
  else (gsriGo R (gsriLimit max) fuel n).map (fun x => x % max)

/-! ## Shuffler (`fisherYatesShuffle`) -/

/-- The destructuring swap `[array[i], array[j]] = [array[j], array[i]]`. -/
def swapAt (l : List Char) (i j : ℕ) : List Char :=
  (l.set i (l.getD j default)).set j (l.getD i default)

/-- The `for (i = length − 1; i > 0; i--)` loop of `fisherYatesShuffle`. -/
def fyGo (R : ℕ → ℕ) : ℕ → List Char → ℕ → List Char × ℕ
  | 0, l, ctr => (l, ctr)
  | i + 1, l, ctr => fyGo R i (swapAt l (i + 1) (randInt R ctr (i + 2))) (ctr + 1)

/-- `fisherYatesShuffle(array)` from `src/options.js`. -/
def fisherYatesShuffle (R : ℕ → ℕ) (ctr : ℕ) (l : List Char) : List Char × ℕ :=
  fyGo R (l.length - 1) l ctr

/-! ## CharacterPoolBuilder (`prepareActiveSets`) -/

/-- The `length` field of a raw options object as consumed by
`parseInt(opts.length) || 16`: absent (merged to the default 18),
non-numeric (`parseInt` gives `NaN`), or an integer. -/
inductive LenInput where
  | missing : LenInput
  | nonNumeric : LenInput
  | num : ℤ → LenInput

/-- `parseInt(opts.length) || 16` after merging `DEFAULT_OPTIONS`
(default length 18): `NaN` and the falsy numeric `0` both map to 16. -/
def parsedLength : LenInput → ℤ
  | .missing => 18
  | .nonNumeric => 16
  | .num n => if n = 0 then 16 else n

/-- A raw options object; `none` fields are absent and take their
`DEFAULT_OPTIONS` value (`upper/lower/nums/symbols/forceEach` true, the
two exclusion flags false; the source's second exclusion flag, which
removes `CODE_UNSAFE` characters from the symbols class, is named
`exclCode` here). -/
structure GenOptions where
  length : LenInput
  upper : Option Bool
  lower : Option Bool
  nums : Option Bool
  symbols : Option Bool
  forceEach : Option Bool
  ambig : Option Bool
  exclCode : Option Bool

/-- The configuration produced by `prepareActiveSets`. -/
structure PreparedConfig where
  length : ℕ
  activeSets : List (List Char)
  forceEach : Bool

/-- `applyFilters(baseSet, isSymbol)` inside `prepareActiveSets`. -/
def applyFilters (ambig exclCode : Bool) (baseSet : List Char)
    (isSymbol : Bool) : List Char :=
  let f1 := if ambig then baseSet.filter (fun c => !(ambiguousChars.contains c))
    else baseSet
  if isSymbol && exclCode then f1.filter (fun c => !(codeUnsafeChars.contains c))
  else f1

/-- `prepareActiveSets(options)` from `src/options.js`:
`length: Math.max(5, Math.min(128, parseInt(opts.length) || 16))`, the
enabled classes in the order upper, lower, nums, symbols, and empty
classes dropped. -/
def prepareActiveSets (options : GenOptions) : PreparedConfig :=
  let ambig := options.ambig.getD false
  let exclCode := options.exclCode.getD false
  let sets : List (List Char) :=
    (if options.upper.getD true then [applyFilters ambig exclCode upperChars false]
      else []) ++
    (if options.lower.getD true then [applyFilters ambig exclCode lowerChars false]
      else []) ++
    (if options.nums.getD true then [applyFilters ambig exclCode numsChars false]
      else []) ++
    (if options.symbols.getD true then [applyFilters ambig exclCode symbolsChars true]
      else [])
  { length := (max 5 (min 128 (parsedLength options.length))).toNat
    activeSets := sets.filter (fun s => 0 < s.length)
    forceEach := options.forceEach.getD true }

/-! ## SamplingPipeline -/

/-- The inner draw loop of one rejection-sampling attempt: `n` uniform
draws from the pool, pushed in order. -/
def buildChars (R : ℕ → ℕ) (pool : List Char) : ℕ → ℕ → List Char × ℕ
  | 0, ctr => ([], ctr)
  | n + 1, ctr =>
    let c := pool.getD (randInt R ctr pool.length) default
    let rest := buildChars R pool n (ctr + 1)
    (c :: rest.1, rest.2)

/-- The `isMissing` test of `tryRandomSampling`:
`activeSets.some(set => !temp.some(char => set.includes(char)))`. -/
def someClassMissing (activeSets : List (List Char)) (temp : List Char) : Bool :=
  activeSets.any (fun set => !(temp.any (fun c => set.contains c)))

/-- The `while (attempts < 1000)` loop of `tryRandomSampling`. -/
def trsGo (R : ℕ → ℕ) (len : ℕ) (pool : List Char)
    (activeSets : List (List Char)) (forceEach : Bool) :
    ℕ → ℕ → Option (List Char) × ℕ
  | 0, ctr => (none, ctr)
  | fuel + 1, ctr =>
    let built := buildChars R pool len ctr
    if forceEach && someClassMissing activeSets built.1 then
      trsGo R len pool activeSets forceEach fuel built.2
    else (some built.1, built.2)

/-- `tryRandomSampling(length, pool, activeSets, forceEach)`. -/
def tryRandomSampling (R : ℕ → ℕ) (ctr len : ℕ) (pool : List Char)
    (activeSets : List (List Char)) (forceEach : Bool) :
    Option (List Char) × ℕ :=
  trsGo R len pool activeSets forceEach 1000 ctr

/-- Phase 1 of `generateGuaranteed`: one draw from every active class. -/
def ggFirst (R : ℕ → ℕ) : List (List Char) → ℕ → List Char × ℕ
  | [], ctr => ([], ctr)
  | set :: rest, ctr =>
    let c := set.getD (randInt R ctr set.length) default
    let tail := ggFirst R rest (ctr + 1)
    (c :: tail.1, tail.2)

/-- Phase 2 of `generateGuaranteed`: the `while (arr.length < length)`
fill from the pool; fuel `len` always suffices. -/
def ggFill (R : ℕ → ℕ) (pool : List Char) (len : ℕ) :
    ℕ → List Char → ℕ → List Char × ℕ
  | 0, arr, ctr => (arr, ctr)
  | fuel + 1, arr, ctr =>
    if arr.length < len then
      ggFill R pool len fuel
        (arr ++ [pool.getD (randInt R ctr pool.length) default]) (ctr + 1)
    else (arr, ctr)

/-- `generateGuaranteed(length, pool, activeSets)`. -/
def generateGuaranteed (R : ℕ → ℕ) (ctr len : ℕ) (pool : List Char)
    (activeSets : List (List Char)) : List Char × ℕ :=
  let first := ggFirst R activeSets ctr
  ggFill R pool len len first.1 first.2

/-- The inner candidate-class loop of `generateCombinatorial` at one
position: candidates `sIdx` in ascending order.  `none` covers both the
`!found` fall-through and a `countRemaining` `RangeError` (the caller
treats the resulting `null` and a thrown exception identically). -/
def findCatGo (remLen : ℕ) (setSizes : List ℕ) (activeSets : List (List Char)) :
    List ℕ → ℤ → ℕ → Option (Char × ℤ × ℕ)
  | [], _, _ => none
  | sIdx :: rest, rank, currentMask =>
    let nextMask := currentMask ||| (1 <<< sIdx)
    match countRemaining remLen setSizes nextMask with
    | none => none
    | some ways =>
      if ways = 0 then findCatGo remLen setSizes activeSets rest rank currentMask
      else
        let totalWays := (setSizes.getD sIdx 0 : ℤ) * ways
        if rank < totalWays then
          some ((activeSets.getD sIdx []).getD (rank / ways).toNat default,
            rank % ways, nextMask)
        else findCatGo remLen setSizes activeSets rest (rank - totalWays) currentMask

/-- The position loop of `generateCombinatorial` with `rem` positions
still to fill (`remLen = rem − 1` matches `length − 1 − i`). -/
def unrankGo (setSizes : List ℕ) (activeSets : List (List Char)) :
    ℕ → ℤ → ℕ → List Char → Option (List Char)
  | 0, _, _, acc => some acc
  | rem + 1, rank, currentMask, acc =>
    match findCatGo rem setSizes activeSets (List.range activeSets.length)
        rank currentMask with
    | none => none
    | some (c, rank', mask') => unrankGo setSizes activeSets rem rank' mask' (acc ++ [c])

/-- The deterministic unranking map of `generateCombinatorial`: the
sequence of `len` characters assigned to `rank`. -/
def unrank (len : ℕ) (activeSets : List (List Char)) (rank : ℤ) :
    Option (List Char) :=
  unrankGo (activeSets.map List.length) activeSets len rank 0 []

/-- `generateCombinatorial(length, activeSets)`: draw `rank` uniformly
below `countValidSequences` and unrank it.  (The call-scoped
memoization of `countRemaining` is semantically transparent and not
modelled.) -/
def generateCombinatorial (R : ℕ → ℕ) (ctr len : ℕ)
    (activeSets : List (List Char)) : Option (List Char) × ℕ :=
  let setSizes := activeSets.map List.length
  let totalValid := countValidSequences len setSizes
  let rank := randBig R ctr totalValid
  (unrank len activeSets rank, ctr + 1)

/-! ## `generatePassword` (Public API) -/

/-- A generation result.  The source's error record has no `method` field
and its success record has no `error` field, hence the `Option`s. -/
structure GenResult where
  password : List Char
  entropy : ℝ
  method : Option String
  error : Option String

/-- `generatePassword(rawOptions)` with the three tier `try/catch` blocks
made explicit: `tierNOk = false` models an exception inside tier `N`
(the source's `catch` nulls tier 1/2's result and sets tier 3's to `[]`).
The pure semantics of the engine, in which no tier throws, is
`generatePassword` below. -/
noncomputable def generatePasswordE (R : ℕ → ℕ) (rawOptions : GenOptions)
    (tier1Ok tier2Ok tier3Ok : Bool) : GenResult :=
  let cfg := prepareActiveSets rawOptions
  if cfg.activeSets.length = 0 then
    { password := [], entropy := 0, method := none, error := some "⚠️ 請選擇類別" }
  else if cfg.forceEach = true ∧ cfg.length < cfg.activeSets.length then
    { password := [], entropy := 0, method := none,
      error := some ("⚠️ 長度不足（至少需 " ++ toString cfg.activeSets.length ++ "）") }
  else
    let pool := cfg.activeSets.flatten
    let setSizes := cfg.activeSets.map List.length
    let t1 : Option (List Char) × ℕ :=
      if tier1Ok then tryRandomSampling R 0 cfg.length pool cfg.activeSets cfg.forceEach
      else (none, 0)
    let tier2 : ℕ → Option (List Char) × String × ℕ := fun c =>
      if cfg.forceEach then
        (if tier2Ok then
          (let t2 := generateCombinatorial R c cfg.length cfg.activeSets
           (t2.1, "combinatorial_sampling", t2.2))
        else (none, "pure_random", c))
      else (none, "pure_random", c)
    let s2 : Option (List Char) × String × ℕ :=
      match t1.1 with
      | some arr =>
        if 0 < arr.length then (some arr, "rejection_sampling", t1.2)
        else if cfg.forceEach then tier2 t1.2
        else (some arr, "pure_random", t1.2)
      | none => tier2 t1.2
    let tier3 : ℕ → List Char × String × ℕ := fun c =>
      if tier3Ok then
        (let t3 := generateGuaranteed R c cfg.length pool cfg.activeSets
         (t3.1, "guaranteed_inclusion", t3.2))
      else ([], "guaranteed_inclusion", c)
    let s3 : List Char × String × ℕ :=
      match s2.1 with
      | some arr => if arr.length = 0 then tier3 s2.2.2 else (arr, s2.2.1, s2.2.2)
      | none => tier3 s2.2.2
    let shuffled := fisherYatesShuffle R s3.2.2 s3.1
    { password := shuffled.1
      entropy := calculateEntropy (cfg.length : ℤ) (pool.length : ℤ) setSizes
        cfg.forceEach s3.2.1
      method := some s3.2.1
      error := none }

/-- `generatePassword(rawOptions)` in the pure (no-exception) semantics. -/
noncomputable def generatePassword (R : ℕ → ℕ) (rawOptions : GenOptions) : GenResult :=
  generatePasswordE R rawOptions true true true

/-! ## Basic properties of the pipeline pieces -/

theorem randInt_lt (R : ℕ → ℕ) (ctr : ℕ) {max : ℕ} (h : 0 < max) :
    randInt R ctr max < max := by
  rw [randInt]
  by_cases h1 : max ≤ 1
  · rw [if_pos h1]; omega
  · rw [if_neg h1]; exact Nat.mod_lt _ h

theorem getD_mem {l : List Char} {i : ℕ} (h : i < l.length) (d : Char) :
    l.getD i d ∈ l := by
  rw [List.getD_eq_getElem?_getD, List.getElem?_eq_getElem h]
  exact List.getElem_mem h

theorem swapAt_length (l : List Char) (i j : ℕ) :
    (swapAt l i j).length = l.length := by
  rw [swapAt, List.length_set, List.length_set]

theorem swapAt_mem {l : List Char} {i j : ℕ} (hi : i < l.length)
    (hj : j < l.length) {c : Char} (hc : c ∈ l) : c ∈ swapAt l i j := by
  obtain ⟨idx, hidx, hcidx⟩ := List.getElem_of_mem hc
  have hlen : (swapAt l i j).length = l.length := swapAt_length l i j
  rw [swapAt] at hlen ⊢
  by_cases hij : i = j
  · subst hij
    by_cases hidxi : idx = i
    · subst hidxi
      refine List.mem_iff_getElem.mpr ⟨idx, by omega, ?_⟩
      rw [List.getElem_set_self (by simpa using hidx),
        List.getD_eq_getElem?_getD, List.getElem?_eq_getElem hidx, hcidx]
      rfl
    · refine List.mem_iff_getElem.mpr ⟨idx, by omega, ?_⟩
      rw [List.getElem_set_ne (fun h => hidxi h.symm),
        List.getElem_set_ne (fun h => hidxi h.symm), hcidx]
  · by_cases hidxi : idx = i
    · subst hidxi
      refine List.mem_iff_getElem.mpr ⟨j, by omega, ?_⟩
      rw [List.getElem_set_self (by simpa using hj),
        List.getD_eq_getElem?_getD, List.getElem?_eq_getElem hidx, hcidx]
      rfl
    · by_cases hidxj : idx = j
      · subst hidxj
        refine List.mem_iff_getElem.mpr ⟨i, by omega, ?_⟩
        rw [List.getElem_set_ne hidxi, List.getElem_set_self (by simpa using hi),
          List.getD_eq_getElem?_getD, List.getElem?_eq_getElem hidx, hcidx]
        rfl
      · refine List.mem_iff_getElem.mpr ⟨idx, by omega, ?_⟩
        rw [List.getElem_set_ne (fun h => hidxj h.symm),
          List.getElem_set_ne (fun h => hidxi h.symm), hcidx]

theorem fyGo_length (R : ℕ → ℕ) :
    ∀ (i : ℕ) (l : List Char) (ctr : ℕ), (fyGo R i l ctr).1.length = l.length := by
  intro i
  induction i with
  | zero => intro l ctr; rfl
  | succ i ih =>
    intro l ctr
    rw [fyGo, ih, swapAt_length]

theorem fyGo_mem (R : ℕ → ℕ) :
    ∀ (i : ℕ) (l : List Char) (ctr : ℕ), i < l.length →
      ∀ {c : Char}, c ∈ l → c ∈ (fyGo R i l ctr).1 := by
  intro i
  induction i with
  | zero => intro l ctr _ c hc; exact hc
  | succ i ih =>
    intro l ctr hi c hc
    rw [fyGo]
    have hsw : (swapAt l (i + 1) (randInt R ctr (i + 2))).length = l.length :=
      swapAt_length _ _ _
    exact ih _ _ (by omega)
      (swapAt_mem hi (by have := randInt_lt R ctr (show 0 < i + 2 by omega); omega) hc)

theorem fisherYatesShuffle_length (R : ℕ → ℕ) (ctr : ℕ) (l : List Char) :
    (fisherYatesShuffle R ctr l).1.length = l.length :=
  fyGo_length R _ l ctr

theorem fisherYatesShuffle_mem (R : ℕ → ℕ) (ctr : ℕ) (l : List Char)
    {c : Char} (hc : c ∈ l) : c ∈ (fisherYatesShuffle R ctr l).1 := by
  rw [fisherYatesShuffle]
  match hl : l with
  | [] => cases hc
  | a :: t => exact fyGo_mem R _ _ ctr (by simp) hc

theorem buildChars_length (R : ℕ → ℕ) (pool : List Char) :
    ∀ (n ctr : ℕ), (buildChars R pool n ctr).1.length = n := by
  intro n
  induction n with
  | zero => intro ctr; rfl
  | succ n ih => intro ctr; rw [buildChars]; simp [ih]

theorem trsGo_some_length (R : ℕ → ℕ) (len : ℕ) (pool : List Char)
    (activeSets : List (List Char)) (forceEach : Bool) :
    ∀ (fuel ctr : ℕ) (a : List Char),
      (trsGo R len pool activeSets forceEach fuel ctr).1 = some a →
      a.length = len := by
  intro fuel
  induction fuel with
  | zero => intro ctr a h; cases h
  | succ fuel ih =>
    intro ctr a h
    rw [trsGo] at h
    by_cases hc : (forceEach && someClassMissing activeSets
        (buildChars R pool len ctr).1) = true
    · rw [if_pos hc] at h
      exact ih _ _ h
    · rw [if_neg hc] at h
      cases h
      exact buildChars_length R pool len ctr

theorem trsGo_some_covers (R : ℕ → ℕ) (len : ℕ) (pool : List Char)
    (activeSets : List (List Char)) :
    ∀ (fuel ctr : ℕ) (a : List Char),
      (trsGo R len pool activeSets true fuel ctr).1 = some a →
      ∀ s ∈ activeSets, ∃ c ∈ a, c ∈ s := by
  intro fuel
  induction fuel with
  | zero => intro ctr a h; cases h
  | succ fuel ih =>
    intro ctr a h
    rw [trsGo] at h
    simp only [Bool.true_and] at h
    by_cases hc : someClassMissing activeSets (buildChars R pool len ctr).1 = true
    · rw [if_pos hc] at h
      exact ih _ _ h
    · rw [if_neg hc] at h
      cases h
      intro s hs
      have hmiss : someClassMissing activeSets (buildChars R pool len ctr).1 = false :=
        Bool.eq_false_iff.mpr hc
      rw [someClassMissing, List.any_eq_false] at hmiss
      have hfs := hmiss s hs
      have hany : (buildChars R pool len ctr).1.any (fun c => s.contains c) = true := by
        simpa using hfs
      rw [List.any_eq_true] at hany
      obtain ⟨c, hc1, hc2⟩ := hany
      exact ⟨c, hc1, List.elem_iff.mp hc2⟩

theorem trsGo_no_forceEach (R : ℕ → ℕ) (len : ℕ) (pool : List Char)
    (activeSets : List (List Char)) (fuel ctr : ℕ) :
    (trsGo R len pool activeSets false (fuel + 1) ctr).1 =
      some (buildChars R pool len ctr).1 := by
  rw [trsGo]
  simp

theorem ggFirst_length (R : ℕ → ℕ) :
    ∀ (sets : List (List Char)) (ctr : ℕ),
      (ggFirst R sets ctr).1.length = sets.length := by
  intro sets
  induction sets with
  | nil => intro ctr; rfl
  | cons s rest ih => intro ctr; rw [ggFirst]; simp [ih]

theorem ggFirst_covers (R : ℕ → ℕ) :
    ∀ (sets : List (List Char)) (ctr : ℕ), (∀ s ∈ sets, s ≠ []) →
      ∀ s ∈ sets, ∃ c ∈ (ggFirst R sets ctr).1, c ∈ s := by
  intro sets
  induction sets with
  | nil => intro ctr _ s hs; cases hs
  | cons s0 rest ih =>
    intro ctr hne s hs
    rw [ggFirst]
    rcases List.mem_cons.mp hs with rfl | hrest
    · have hpos : 0 < s.length :=
        List.length_pos.mpr (hne s (List.mem_cons_self _ _))
      exact ⟨s.getD (randInt R ctr s.length) default, List.mem_cons_self _ _,
        getD_mem (randInt_lt R ctr hpos) default⟩
    · obtain ⟨c, hc1, hc2⟩ := ih (ctr + 1) (fun t ht => hne t (List.mem_cons_of_mem _ ht))
        s hrest
      exact ⟨c, List.mem_cons_of_mem _ hc1, hc2⟩

theorem ggFill_length (R : ℕ → ℕ) (pool : List Char) (len : ℕ) :
    ∀ (fuel : ℕ) (arr : List Char) (ctr : ℕ), len ≤ fuel + arr.length →
      (ggFill R pool len fuel arr ctr).1.length = max arr.length len := by
  intro fuel
  induction fuel with
  | zero =>
    intro arr ctr h
    rw [ggFill]
    dsimp only
    exact (max_eq_left (by omega)).symm
  | succ fuel ih =>
    intro arr ctr h
    rw [ggFill]
    by_cases hlt : arr.length < len
    · rw [if_pos hlt, ih _ _ (by simp; omega), List.length_append]
      rw [max_eq_right (by simp; omega), max_eq_right (by omega)]
    · rw [if_neg hlt]
      dsimp only
      exact (max_eq_left (by omega)).symm

theorem ggFill_mem (R : ℕ → ℕ) (pool : List Char) (len : ℕ) :
    ∀ (fuel : ℕ) (arr : List Char) (ctr : ℕ) {c : Char}, c ∈ arr →
      c ∈ (ggFill R pool len fuel arr ctr).1 := by
  intro fuel
  induction fuel with
  | zero => intro arr ctr c hc; exact hc
  | succ fuel ih =>
    intro arr ctr c hc
    rw [ggFill]
    by_cases hlt : arr.length < len
    · rw [if_pos hlt]
      exact ih _ _ (List.mem_append_left _ hc)
    · rw [if_neg hlt]
      exact hc

theorem generateGuaranteed_length (R : ℕ → ℕ) (ctr len : ℕ) (pool : List Char)
    (sets : List (List Char)) (h : sets.length ≤ len) :
    (generateGuaranteed R ctr len pool sets).1.length = len := by
  rw [generateGuaranteed, ggFill_length R pool len len _ _
    (by rw [ggFirst_length]; omega), ggFirst_length]
  omega

theorem generateGuaranteed_covers (R : ℕ → ℕ) (ctr len : ℕ) (pool : List Char)
    (sets : List (List Char)) (hne : ∀ s ∈ sets, s ≠ []) :
    ∀ s ∈ sets, ∃ c ∈ (generateGuaranteed R ctr len pool sets).1, c ∈ s := by
  intro s hs
  obtain ⟨c, hc1, hc2⟩ := ggFirst_covers R sets ctr hne s hs
  exact ⟨c, ggFill_mem R pool len len _ _ hc1, hc2⟩

theorem randBig_nonneg (R : ℕ → ℕ) (ctr : ℕ) (maxEx : ℤ) :
    0 ≤ randBig R ctr maxEx := by
  rw [randBig]
  by_cases h : maxEx ≤ 1
  · rw [if_pos h]
  · rw [if_neg h]
    exact Int.emod_nonneg _ (by omega)

theorem unrankGo_some_length (sizes : List ℕ) (sets : List (List Char)) :
    ∀ (rem : ℕ) (rank : ℤ) (mask : ℕ) (acc res : List Char),
      unrankGo sizes sets rem rank mask acc = some res →
      res.length = acc.length + rem := by
  intro rem
  induction rem with
  | zero =>
    intro rank mask acc res h
    rw [unrankGo] at h
    cases h
    omega
  | succ rem ih =>
    intro rank mask acc res h
    rw [unrankGo] at h
    cases hf : findCatGo rem sizes sets (List.range sets.length) rank mask with
    | none => rw [hf] at h; cases h
    | some v =>
      rw [hf] at h
      have := ih _ _ _ _ h
      rw [this, List.length_append]
      simp
      omega

/-- What a successful inner candidate search yields: the accepted class
index is among the candidates, the chosen character genuinely belongs to
that class, the new rank is non-negative, and the completion count for
the new mask is a non-zero value. -/
theorem findCatGo_spec (remLen : ℕ) (sets : List (List Char)) :
    ∀ (idxs : List ℕ) (rank : ℤ) (mask : ℕ) (c : Char) (rank' : ℤ) (mask' : ℕ),
      (∀ i ∈ idxs, i < sets.length) → 0 ≤ rank →
      findCatGo remLen (sets.map List.length) sets idxs rank mask =
        some (c, rank', mask') →
      ∃ sIdx ∈ idxs, mask' = mask ||| 2 ^ sIdx ∧ 0 ≤ rank' ∧
        c ∈ sets.getD sIdx [] ∧
        ∃ w : ℤ, countRemaining remLen (sets.map List.length) mask' = some w ∧
          w ≠ 0 := by
  intro idxs
  induction idxs with
  | nil => intro rank mask c rank' mask' _ _ h; cases h
  | cons sIdx rest ih =>
    intro rank mask c rank' mask' hidx hrk h
    rw [findCatGo] at h
    have hslt : sIdx < sets.length := hidx sIdx (List.mem_cons_self _ _)
    have hshift : 1 <<< sIdx = 2 ^ sIdx := by
      rw [Nat.shiftLeft_eq, one_mul]
    cases hcr : countRemaining remLen (sets.map List.length) (mask ||| 1 <<< sIdx) with
    | none => rw [hcr] at h; cases h
    | some ways =>
      rw [hcr] at h
      dsimp only at h
      by_cases hw0 : ways = 0
      · rw [if_pos hw0] at h
        obtain ⟨j, hj1, hj2⟩ := ih rank mask c rank' mask'
          (fun i hi => hidx i (List.mem_cons_of_mem _ hi)) hrk h
        exact ⟨j, List.mem_cons_of_mem _ hj1, hj2⟩
      · rw [if_neg hw0] at h
        have hsz : ((sets.map List.length).getD sIdx 0 : ℤ) =
            ((sets.getD sIdx []).length : ℤ) := by
          congr 1
          rw [List.getD_eq_getElem?_getD, List.getD_eq_getElem?_getD,
            List.getElem?_eq_getElem (by simpa using hslt),
            List.getElem?_eq_getElem hslt, List.getElem_map]
          rfl
        by_cases hlt : rank < ((sets.map List.length).getD sIdx 0 : ℤ) * ways
        · rw [if_pos hlt] at h
          cases h
          have hwpos : 0 < ways := by
            rcases lt_trichotomy ways 0 with hneg | hz | hpos
            · exfalso
              have hnn : (0 : ℤ) ≤ ((sets.map List.length).getD sIdx 0 : ℤ) := by
                positivity
              nlinarith
            · exact absurd hz hw0
            · exact hpos
          have hspos : (0 : ℤ) < ((sets.getD sIdx []).length : ℤ) := by
            rw [← hsz]
            nlinarith
          have hdiv_nonneg : 0 ≤ rank / ways := Int.ediv_nonneg hrk (le_of_lt hwpos)
          have hdiv_lt : rank / ways < ((sets.getD sIdx []).length : ℤ) := by
            rw [← hsz]
            exact (Int.ediv_lt_iff_lt_mul hwpos).mpr (by rw [mul_comm] at hlt ⊢; nlinarith)
          have hm2 : mask ||| 1 <<< sIdx = mask ||| 2 ^ sIdx := by rw [hshift]
          refine ⟨sIdx, List.mem_cons_self _ _, hm2, ?_, ?_, ways, hcr, hw0⟩
          · exact Int.emod_nonneg _ (by omega)
          · apply getD_mem
            have : ((rank / ways).toNat : ℤ) = rank / ways := Int.toNat_of_nonneg hdiv_nonneg
            omega
        · rw [if_neg hlt] at h
          obtain ⟨j, hj1, hj2⟩ := ih (rank - (((sets.map List.length).getD sIdx 0 : ℤ)
              * ways)) mask c rank' mask'
            (fun i hi => hidx i (List.mem_cons_of_mem _ hi)) (by omega) h
          exact ⟨j, List.mem_cons_of_mem _ hj1, hj2⟩

/-- The coverage invariant of the unranking loop: a successful unranking
that still has at least one position to fill ends with every class
represented, because at the last position only the full mask has a
non-zero completion count. -/
theorem unrankGo_covers (sets : List (List Char)) :
    ∀ (rem : ℕ) (rank : ℤ) (mask : ℕ) (acc res : List Char),
      1 ≤ rem → 0 ≤ rank → mask ≤ 2 ^ sets.length - 1 →
      (∀ i, i < sets.length → mask.testBit i → ∃ c ∈ acc, c ∈ sets.getD i []) →
      unrankGo (sets.map List.length) sets rem rank mask acc = some res →
      ∀ i, i < sets.length → ∃ c ∈ res, c ∈ sets.getD i [] := by
  intro rem
  induction rem with
  | zero => intro _ _ _ _ h; omega
  | succ rem ih =>
    intro rank mask acc res _ hrk hmask hinv h
    rw [unrankGo] at h
    cases hf : findCatGo rem (sets.map List.length) sets (List.range sets.length)
        rank mask with
    | none => rw [hf] at h; cases h
    | some v =>
      obtain ⟨c, rank', mask'⟩ := v
      rw [hf] at h
      dsimp only at h
      obtain ⟨sIdx, hsmem, hm', hrk', hcmem, w, hw, hw0⟩ :=
        findCatGo_spec rem sets (List.range sets.length) rank mask c rank' mask'
          (fun i hi => List.mem_range.mp hi) hrk hf
      have hslt : sIdx < sets.length := List.mem_range.mp hsmem
      have hmask' : mask' ≤ 2 ^ sets.length - 1 := by
        have h2 : (1 : ℕ) ≤ 2 ^ sets.length := Nat.one_le_two_pow
        have := Nat.or_lt_two_pow (x := mask) (y := 2 ^ sIdx) (n := sets.length)
          (by omega) (Nat.pow_lt_pow_right (by omega) hslt)
        omega
      have hinv' : ∀ i, i < sets.length → mask'.testBit i →
          ∃ c' ∈ acc ++ [c], c' ∈ sets.getD i [] := by
        intro i hi hbit
        rw [hm', Nat.testBit_or, Nat.testBit_two_pow] at hbit
        rcases Bool.or_eq_true_iff.mp hbit with hold | hnew
        · obtain ⟨c', hc'1, hc'2⟩ := hinv i hi hold
          exact ⟨c', List.mem_append_left _ hc'1, hc'2⟩
        · have : sIdx = i := of_decide_eq_true hnew
          subst this
          exact ⟨c, List.mem_append_right _ (List.mem_singleton_self _), hcmem⟩
      rcases Nat.eq_zero_or_pos rem with rfl | hrem
      · -- last position: the accepted mask must be the full mask
        rw [unrankGo.eq_def] at h
        dsimp only at h
        cases h
        have hz := countRemaining_exp_zero (sets.map List.length) mask'
          (by simpa using hmask')
        rw [hw] at hz
        have hwval : w = (if mask' = 2 ^ (sets.map List.length).length - 1
            then (1 : ℤ) else 0) := by
          cases hz
          rfl
        have hfull : mask' = 2 ^ sets.length - 1 := by
          by_cases hfm : mask' = 2 ^ (sets.map List.length).length - 1
          · simpa using hfm
          · rw [if_neg hfm] at hwval
            exact absurd hwval hw0
        intro i hi
        apply hinv' i hi
        rw [hfull, Nat.testBit_two_pow_sub_one]
        exact decide_eq_true hi
      · exact ih rank' mask' (acc ++ [c]) res hrem hrk' hmask' hinv' h

/-! ## Properties of `prepareActiveSets` -/

theorem prepared_sets_nonempty (o : GenOptions) :
    ∀ s ∈ (prepareActiveSets o).activeSets, s ≠ [] := by
  intro s hs
  rw [prepareActiveSets] at hs
  dsimp only at hs
  have := List.of_mem_filter hs
  intro hnil
  subst hnil
  simp at this

theorem prepared_length_bounds (o : GenOptions) :
    5 ≤ (prepareActiveSets o).length ∧ (prepareActiveSets o).length ≤ 128 := by
  rw [prepareActiveSets]
  dsimp only
  set p := parsedLength o.length with hp
  have h5 : (5 : ℤ) ≤ max 5 (min 128 p) := le_max_left _ _
  have h128 : max 5 (min 128 p) ≤ 128 :=
    max_le (by omega) (min_le_left _ _)
  have hnn : (0 : ℤ) ≤ max 5 (min 128 p) := by omega
  have := Int.toNat_of_nonneg hnn
  omega

theorem prepared_length_clamp (o : GenOptions) :
    (prepareActiveSets o).length =
      (max 5 (min 128 (parsedLength o.length))).toNat := rfl

/-- Any class filter only shrinks the flattened pool. -/
theorem flatten_filter_le (p : List Char → Bool) :
    ∀ l : List (List Char), ((l.filter p).flatten).length ≤ (l.flatten).length := by
  intro l
  induction l with
  | nil => simp
  | cons a t ih =>
    rw [List.filter_cons]
    by_cases hp : p a = true
    · rw [if_pos hp]
      simp only [List.flatten_cons, List.length_append]
      omega
    · rw [if_neg hp]
      simp only [List.flatten_cons, List.length_append]
      omega

theorem applyFilters_length_le (a e : Bool) (base : List Char) (isSym : Bool) :
    (applyFilters a e base isSym).length ≤ base.length := by
  rw [applyFilters]
  have h1 : (if a then base.filter (fun c => !(ambiguousChars.contains c))
      else base).length ≤ base.length := by
    by_cases ha : a = true
    · rw [if_pos ha]; exact List.length_filter_le _ _
    · rw [if_neg ha]
  by_cases hs : (isSym && e) = true
  · rw [if_pos hs]
    exact le_trans (List.length_filter_le _ _) h1
  · rw [if_neg hs]
    exact h1

/-- Every pool handed to the random primitives by the engine has at most
`26 + 26 + 10 + 32 = 94` characters. -/
theorem prepared_pool_le (o : GenOptions) :
    ((prepareActiveSets o).activeSets.flatten).length ≤ 94 := by
  rw [prepareActiveSets]
  dsimp only
  apply le_trans (flatten_filter_le _ _)
  have hu := applyFilters_length_le (o.ambig.getD false) (o.exclCode.getD false)
    upperChars false
  have hl := applyFilters_length_le (o.ambig.getD false) (o.exclCode.getD false)
    lowerChars false
  have hn := applyFilters_length_le (o.ambig.getD false) (o.exclCode.getD false)
    numsChars false
  have hsy := applyFilters_length_le (o.ambig.getD false) (o.exclCode.getD false)
    symbolsChars true
  have hul : upperChars.length = 26 := by decide
  have hll : lowerChars.length = 26 := by decide
  have hnl : numsChars.length = 10 := by decide
  have hsl : symbolsChars.length = 32 := by decide
  by_cases h1 : o.upper.getD true <;> by_cases h2 : o.lower.getD true <;>
    by_cases h3 : o.nums.getD true <;> by_cases h4 : o.symbols.getD true <;>
    simp only [h1, h2, h3, h4, if_true, if_false, Bool.false_eq_true, if_pos, if_neg,
      eq_self_iff_true, not_false_iff, List.flatten_append,
      List.length_append, List.flatten_cons, List.flatten_nil,
      List.append_nil, List.length_nil] <;>
    omega

/-! ## The pipeline invariants of `generatePassword` -/

/-- Core run lemma: when the configuration guards pass, `generatePassword`
returns no error, a password of exactly the clamped length, and — under
`forceEach` — a password meeting every active class, whichever tier
produced it. -/
theorem generatePassword_run (R : ℕ → ℕ) (o : GenOptions)
    (h1 : (prepareActiveSets o).activeSets.length ≠ 0)
    (h2 : (prepareActiveSets o).forceEach = true →
      (prepareActiveSets o).activeSets.length ≤ (prepareActiveSets o).length) :
    (generatePassword R o).error = none ∧
    (generatePassword R o).password.length = (prepareActiveSets o).length ∧
    ((prepareActiveSets o).forceEach = true →
      ∀ s ∈ (prepareActiveSets o).activeSets,
        ∃ c ∈ (generatePassword R o).password, c ∈ s) := by
  have hlen5 := (prepared_length_bounds o).1
  have hne := prepared_sets_nonempty o
  unfold generatePassword generatePasswordE
  rw [if_neg h1, if_neg (by rintro ⟨hfe, hlt⟩; have := h2 hfe; omega)]
  dsimp only
  simp only [if_true, eq_self_iff_true]
  set cfg := prepareActiveSets o with hcfg
  refine ⟨trivial, ?_⟩
  cases ht1 : (tryRandomSampling R 0 cfg.length cfg.activeSets.flatten cfg.activeSets
      cfg.forceEach).1 with
  | some arr =>
    have harr : arr.length = cfg.length :=
      trsGo_some_length R cfg.length cfg.activeSets.flatten cfg.activeSets
        cfg.forceEach 1000 0 arr ht1
    dsimp only
    rw [if_pos (show 0 < arr.length by omega)]
    dsimp only
    rw [if_neg (show ¬arr.length = 0 by omega)]
    dsimp only
    constructor
    · rw [fisherYatesShuffle_length]
      exact harr
    · intro hfe s hs
      rw [hfe] at ht1
      obtain ⟨c, hc1, hc2⟩ := trsGo_some_covers R cfg.length cfg.activeSets.flatten
        cfg.activeSets 1000 0 arr ht1 s hs
      exact ⟨c, fisherYatesShuffle_mem R _ arr hc1, hc2⟩
  | none =>
    by_cases hfe : cfg.forceEach = true
    · dsimp only
      rw [if_pos hfe]
      dsimp only
      cases ht2 : (generateCombinatorial R
          (tryRandomSampling R 0 cfg.length cfg.activeSets.flatten cfg.activeSets
            cfg.forceEach).2 cfg.length cfg.activeSets).1 with
      | some a =>
        have ha : a.length = cfg.length := by
          have := unrankGo_some_length (cfg.activeSets.map List.length) cfg.activeSets
            cfg.length _ 0 [] a ht2
          simpa using this
        dsimp only
        rw [if_neg (show ¬a.length = 0 by omega)]
        dsimp only
        constructor
        · rw [fisherYatesShuffle_length]
          exact ha
        · intro _ s hs
          obtain ⟨i, hi, hgi⟩ := List.getElem_of_mem hs
          have hcov := unrankGo_covers cfg.activeSets cfg.length _ 0 [] a
            (by omega) (randBig_nonneg R _ _) (Nat.zero_le _)
            (by intro j _ hbit; rw [Nat.zero_testBit] at hbit; cases hbit)
            ht2 i hi
          obtain ⟨c, hc1, hc2⟩ := hcov
          refine ⟨c, fisherYatesShuffle_mem R _ a hc1, ?_⟩
          rw [List.getD_eq_getElem?_getD, List.getElem?_eq_getElem hi, hgi] at hc2
          exact hc2
      | none =>
        dsimp only
        constructor
        · rw [fisherYatesShuffle_length]
          exact generateGuaranteed_length R _ cfg.length cfg.activeSets.flatten
            cfg.activeSets (h2 hfe)
        · intro _ s hs
          obtain ⟨c, hc1, hc2⟩ := generateGuaranteed_covers R _ cfg.length
            cfg.activeSets.flatten cfg.activeSets hne s hs
          exact ⟨c, fisherYatesShuffle_mem R _ _ hc1, hc2⟩
    · exfalso
      have hfe' : cfg.forceEach = false := Bool.eq_false_iff.mpr hfe
      rw [hfe'] at ht1
      rw [tryRandomSampling] at ht1
      have h1000 : (1000 : ℕ) = 999 + 1 := rfl
      rw [h1000, trsGo_no_forceEach] at ht1
      cases ht1

/-- With no enabled class surviving the filters, `generatePassword`
returns the no-class configuration error. -/
theorem generatePassword_error_of_no_class (R : ℕ → ℕ) (o : GenOptions)
    (hk : (prepareActiveSets o).activeSets.length = 0) :
    (generatePassword R o).error = some "⚠️ 請選擇類別" := by
  unfold generatePassword generatePasswordE
  rw [if_pos hk]

/-! ## Concrete option records used in the claims -/

/-- `generatePassword({})`: every field takes its default. -/
def defaultRawOptions : GenOptions :=
  ⟨.missing, none, none, none, none, none, none, none⟩

/-- `generatePassword({length: 3, upper: true, lower: true, nums: true,
symbols: true, forceEach: true})`. -/
def lengthThreeAllClasses : GenOptions :=
  ⟨.num 3, some true, some true, some true, some true, some true, none, none⟩

/-- `generatePassword({length: 0, ...})`: a numeric length of `0`. -/
def lengthZeroAllClasses : GenOptions :=
  ⟨.num 0, some true, some true, some true, some true, some true, none, none⟩

/-- An oracle whose first draws land in the four classes of the default
94-character pool, so that the first rejection-sampling attempt succeeds. -/
def coveringOracle : ℕ → ℕ := fun n => 27 * n

/-! ## Claims C2, C3, C4 -/

/-- Claim C2, counterexample: with the numeric length input `0`, the
password has 16 characters, not `clamp(0, 5, 128) = 5` — `parseInt(0)`
is falsy, so `0` is replaced by the default 16 exactly like non-numeric
input, which the claim's clamp formula does not account for. -/
theorem claim_C2_counterexample :
    ¬ ((generatePassword coveringOracle lengthZeroAllClasses).password.length =
      (max 5 (min 128 (0 : ℤ))).toNat) := by
  have hrun := generatePassword_run coveringOracle lengthZeroAllClasses
    (by decide) (by decide)
  have hlen : (prepareActiveSets lengthZeroAllClasses).length = 16 := by decide
  have hclamp : (max 5 (min 128 (0 : ℤ))).toNat = 5 := by decide
  rw [hrun.2.1, hlen, hclamp]
  omega

/-- Claim C2 (amended): for every configuration accepted without a
configuration error, the password length is exactly
`clamp(length, 5, 128)`, where non-numeric length input **and the falsy
numeric input 0** are replaced by 16 before clamping (`parsedLength`). -/
theorem claim_C2_length_invariant (R : ℕ → ℕ) (o : GenOptions)
    (h1 : (prepareActiveSets o).activeSets ≠ [])
    (h2 : (prepareActiveSets o).forceEach = true →
      (prepareActiveSets o).activeSets.length ≤ (prepareActiveSets o).length) :
    (generatePassword R o).error = none ∧
    (generatePassword R o).password.length =
      (max 5 (min 128 (parsedLength o.length))).toNat := by
  have hk : (prepareActiveSets o).activeSets.length ≠ 0 :=
    fun hz => h1 (List.length_eq_zero.mp hz)
  have hrun := generatePassword_run R o hk h2
  exact ⟨hrun.1, by rw [hrun.2.1, prepared_length_clamp]⟩

/-- Claim C2 witness: default options under an arbitrary oracle. -/
theorem claim_C2_length_invariant_witness :
    (prepareActiveSets defaultRawOptions).activeSets ≠ [] ∧
    ((prepareActiveSets defaultRawOptions).forceEach = true →
      (prepareActiveSets defaultRawOptions).activeSets.length ≤
        (prepareActiveSets defaultRawOptions).length) ∧
    ((generatePassword (fun _ => 0) defaultRawOptions).error = none ∧
      (generatePassword (fun _ => 0) defaultRawOptions).password.length =
        (max 5 (min 128 (parsedLength defaultRawOptions.length))).toNat) :=
  ⟨by decide, by decide,
    claim_C2_length_invariant (fun _ => 0) defaultRawOptions (by decide) (by decide)⟩

/-- Claim C3: with `forceEach` and sufficient clamped length, every
returned password (no error field) contains at least one character from
every active class, regardless of which tier produced it. -/
theorem claim_C3_coverage_invariant (R : ℕ → ℕ) (o : GenOptions)
    (hfe : (prepareActiveSets o).forceEach = true)
    (hlen : (prepareActiveSets o).activeSets.length ≤ (prepareActiveSets o).length)
    (herr : (generatePassword R o).error = none) :
    ∀ s ∈ (prepareActiveSets o).activeSets,
      ∃ c ∈ (generatePassword R o).password, c ∈ s := by
  by_cases hk : (prepareActiveSets o).activeSets.length = 0
  · rw [generatePassword_error_of_no_class R o hk] at herr
    cases herr
  · exact (generatePassword_run R o hk (fun _ => hlen)).2.2 hfe

/-- Claim C3 witness: default options under an arbitrary oracle. -/
theorem claim_C3_coverage_invariant_witness :
    (prepareActiveSets defaultRawOptions).forceEach = true ∧
    (prepareActiveSets defaultRawOptions).activeSets.length ≤
      (prepareActiveSets defaultRawOptions).length ∧
    (generatePassword (fun _ => 0) defaultRawOptions).error = none ∧
    ∀ s ∈ (prepareActiveSets defaultRawOptions).activeSets,
      ∃ c ∈ (generatePassword (fun _ => 0) defaultRawOptions).password, c ∈ s := by
  have herr : (generatePassword (fun _ => 0) defaultRawOptions).error = none :=
    (generatePassword_run (fun _ => 0) defaultRawOptions (by decide) (by decide)).1
  exact ⟨by decide, by decide, herr,
    claim_C3_coverage_invariant (fun _ => 0) defaultRawOptions (by decide)
      (by decide) herr⟩

/-- Claim C4, counterexample: `{length: 3, upper, lower, nums, symbols,
forceEach}` does **not** return a configuration error — the requested
length 3 is clamped to 5 in `prepareActiveSets` before the `forceEach`
minimum-length check, so a 5-character password is generated. -/
theorem claim_C4_counterexample :
    (generatePassword coveringOracle lengthThreeAllClasses).error = none ∧
    (generatePassword coveringOracle lengthThreeAllClasses).password.length = 5 := by
  have hrun := generatePassword_run coveringOracle lengthThreeAllClasses
    (by decide) (by decide)
  have hlen : (prepareActiveSets lengthThreeAllClasses).length = 5 := by decide
  exact ⟨hrun.1, by rw [hrun.2.1, hlen]⟩

/-- Claim C4 (amended): the options `{length: 3, upper: true, lower:
true, nums: true, symbols: true, forceEach: true}` yield no
configuration error but a password of length 5, for every behaviour of
the random source: the length is clamped into `[5, 128]` before the
`forceEach` check compares it with the class count, so with at most 4
classes the "length below required minimum" error is unreachable. -/
theorem claim_C4_clamped_no_error (R : ℕ → ℕ) :
    (generatePassword R lengthThreeAllClasses).error = none ∧
    (generatePassword R lengthThreeAllClasses).password.length = 5 := by
  have hrun := generatePassword_run R lengthThreeAllClasses (by decide) (by decide)
  have hlen : (prepareActiveSets lengthThreeAllClasses).length = 5 := by decide
  exact ⟨hrun.1, by rw [hrun.2.1, hlen]⟩

/-! ## Claim C8 -/

/-- Claim C8 (behaviour of the code at the failing input): when all three
tiers fail — tier 1 interrupted (or out of attempts), tiers 2 and 3
interrupted by environment exceptions — `generatePassword` silently
returns an empty password with **no** error field and method
`guaranteed_inclusion`, instead of surfacing a fatal internal-invariant
violation. -/
theorem claim_C8_silent_empty_password :
    (generatePasswordE (fun _ => 0) defaultRawOptions false false false).password = [] ∧
    (generatePasswordE (fun _ => 0) defaultRawOptions false false false).error = none ∧
    (generatePasswordE (fun _ => 0) defaultRawOptions false false false).method =
      some "guaranteed_inclusion" :=
  ⟨rfl, rfl, rfl⟩

/-! ## Claim C10: `getSecureRandomInt` -/

/-- If some draw from index `n` onwards is below the limit, the rejection
loop terminates with an accepted value. -/
theorem gsriGo_terminates (R : ℕ → ℕ) (limit : ℕ) :
    ∀ (j n : ℕ), R (n + j) % 2 ^ 32 < limit →
      ∃ x, gsriGo R limit (j + 1) n = some x ∧ x < limit := by
  intro j
  induction j with
  | zero =>
    intro n h
    rw [Nat.add_zero] at h
    exact ⟨R n % 2 ^ 32, by rw [gsriGo, if_pos h], h⟩
  | succ j ih =>
    intro n h
    by_cases hacc : R n % 2 ^ 32 < limit
    · exact ⟨R n % 2 ^ 32, by rw [gsriGo, if_pos hacc], hacc⟩
    · obtain ⟨x, hx1, hx2⟩ := ih (n + 1) (by rw [show n + 1 + j = n + (j + 1) by omega]; exact h)
      exact ⟨x, by rw [gsriGo, if_neg hacc]; exact hx1, hx2⟩

/-- The rejection loop can never accept when the limit is 0. -/
theorem gsriGo_zero_limit (R : ℕ → ℕ) :
    ∀ (fuel n : ℕ), gsriGo R 0 fuel n = none := by
  intro fuel
  induction fuel with
  | zero => intro n; rfl
  | succ fuel ih => intro n; rw [gsriGo, if_neg (by omega)]; exact ih (n + 1)

/-- Claim C10: `getSecureRandomInt` returns 0 for `max ≤ 1`; for
`2 ≤ max ≤ 2^32` the acceptance limit is positive and the loop
terminates with a value in `[0, max)` for every oracle that eventually
draws below the limit; for `max > 2^32` the limit is 0 and the loop
never terminates; and every in-engine call site passes a bound at most
the pool size (≤ 94) or the clamped length (≤ 128) plus one. -/
theorem claim_C10_getSecureRandomInt :
    (∀ (R : ℕ → ℕ) (n fuel max : ℕ), max ≤ 1 →
      getSecureRandomIntFuel R n max fuel = some 0) ∧
    (∀ (R : ℕ → ℕ) (n max : ℕ), 2 ≤ max → max ≤ 2 ^ 32 →
      0 < gsriLimit max ∧
      ∀ j, R (n + j) % 2 ^ 32 < gsriLimit max →
        ∃ fuel r, getSecureRandomIntFuel R n max fuel = some r ∧ r < max) ∧
    (∀ max : ℕ, 2 ^ 32 < max → gsriLimit max = 0 ∧
      ∀ (R : ℕ → ℕ) (n fuel : ℕ), getSecureRandomIntFuel R n max fuel = none) ∧
    (∀ o : GenOptions, ((prepareActiveSets o).activeSets.flatten).length ≤ 94 ∧
      (prepareActiveSets o).length ≤ 128) := by
  refine ⟨?_, ?_, ?_, ?_⟩
  · intro R n fuel max h
    rw [getSecureRandomIntFuel]
    interval_cases max
    · rw [if_pos rfl]
    · rw [if_neg (by omega), if_pos rfl]
  · intro R n max h2 h32
    have hdiv : 1 ≤ 2 ^ 32 / max := (Nat.one_le_div_iff (by omega)).mpr h32
    have hlim : 0 < gsriLimit max := by
      rw [gsriLimit]
      exact Nat.mul_pos (by omega) (by omega)
    refine ⟨hlim, ?_⟩
    intro j hj
    obtain ⟨x, hx1, _⟩ := gsriGo_terminates R (gsriLimit max) j n hj
    refine ⟨j + 1, x % max, ?_, Nat.mod_lt _ (by omega)⟩
    rw [getSecureRandomIntFuel, if_neg (by omega), if_neg (by omega), hx1]
    rfl
  · intro max h
    have hlim : gsriLimit max = 0 := by
      rw [gsriLimit, Nat.div_eq_of_lt h, Nat.zero_mul]
    refine ⟨hlim, ?_⟩
    intro R n fuel
    rw [getSecureRandomIntFuel, if_neg (by omega), if_neg (by omega), hlim,
      gsriGo_zero_limit]
    rfl
  · intro o
    exact ⟨prepared_pool_le o, (prepared_length_bounds o).2⟩

/-- Claim C10 witness: the four parts at concrete inputs (`max = 1`;
`max = 5` with the constant-zero oracle accepted at the first draw;
`max = 2^33`; the default options). -/
theorem claim_C10_getSecureRandomInt_witness :
    ((1 : ℕ) ≤ 1 ∧ getSecureRandomIntFuel (fun _ => 0) 0 1 7 = some 0) ∧
    ((2 ≤ 5 ∧ (5 : ℕ) ≤ 2 ^ 32 ∧ (fun _ => (0 : ℕ)) (0 + 0) % 2 ^ 32 < gsriLimit 5) ∧
      0 < gsriLimit 5 ∧
      ∃ fuel r, getSecureRandomIntFuel (fun _ => 0) 0 5 fuel = some r ∧ r < 5) ∧
    ((2 : ℕ) ^ 32 < 2 ^ 33 ∧ gsriLimit (2 ^ 33) = 0 ∧
      getSecureRandomIntFuel (fun _ => 0) 0 (2 ^ 33) 9 = none) ∧
    (((prepareActiveSets defaultRawOptions).activeSets.flatten).length ≤ 94 ∧
      (prepareActiveSets defaultRawOptions).length ≤ 128) := by
  have hacc : (fun _ => (0 : ℕ)) (0 + 0) % 2 ^ 32 < gsriLimit 5 := by decide
  refine ⟨⟨by decide, claim_C10_getSecureRandomInt.1 (fun _ => 0) 0 7 1 (by decide)⟩,
    ⟨⟨by decide, by decide, hacc⟩,
      (claim_C10_getSecureRandomInt.2.1 (fun _ => 0) 0 5 (by decide) (by decide)).1,
      (claim_C10_getSecureRandomInt.2.1 (fun _ => 0) 0 5 (by decide) (by decide)).2
        0 hacc⟩,
    ⟨by decide, (claim_C10_getSecureRandomInt.2.2.1 (2 ^ 33) (by decide)).1,
      (claim_C10_getSecureRandomInt.2.2.1 (2 ^ 33) (by decide)).2 (fun _ => 0) 0 9⟩,
    claim_C10_getSecureRandomInt.2.2.2 defaultRawOptions⟩

/-! ## Claim C6: the unranking bijection at `L = 4`, `sizes = [2, 2]` -/

/-- Spec-side brute-force enumeration: every length-`n` sequence over
`pool`, first position slowest, in pool order (lexicographic). -/
def allTuples (pool : List Char) : ℕ → List (List Char)
  | 0 => [[]]
  | n + 1 => pool.flatMap (fun c => (allTuples pool n).map (fun s => c :: s))

/-- Spec-side validity: the sequence contains a character of every class. -/
def coversAll (sets : List (List Char)) (s : List Char) : Bool :=
  sets.all (fun st => s.any (fun c => st.contains c))

/-- The two classes of the C6 instance: sizes `[2, 2]`. -/
def c6Sets : List (List Char) := [['A', 'B'], ['a', 'b']]

set_option maxRecDepth 8000 in
/-- Claim C6: at `L = 4`, `sizes = [2, 2]`, `countValidSequences` equals
the brute-force count of covering sequences (224), and unranking every
rank in `[0, 224)` produces exactly the brute-force list — 224 distinct
valid sequences, a bijection between `[0, T)` and the valid sequences. -/
theorem claim_C6_unranking_bijection :
    countValidSequences 4 [2, 2] = 224 ∧
    ((allTuples c6Sets.flatten 4).filter (coversAll c6Sets)).length = 224 ∧
    (List.range 224).filterMap (fun r => unrank 4 c6Sets (r : ℤ)) =
      (allTuples c6Sets.flatten 4).filter (coversAll c6Sets) ∧
    ((allTuples c6Sets.flatten 4).filter (coversAll c6Sets)).Nodup :=
  ⟨by decide, by decide, by decide, by decide⟩

/-- Claim C1 witness: the subset-sum identity applied at `L = 3`,
`sizes = [1, 2]`. -/
theorem claim_C1_countValidSequences_witness :
    countValidSequences 3 [1, 2] =
      (∑ S ∈ (Finset.range ([1, 2] : List ℕ).length).powerset,
        (-1) ^ S.card * ((([1, 2] : List ℕ).sum : ℤ) -
          ∑ i ∈ S, (([1, 2] : List ℕ).getD i 0 : ℤ)) ^ 3) ∧
      countValidSequences 5 [2, 3] = 2850 :=
  claim_C1_countValidSequences 3 [1, 2]

/-- Claim C4 witness: the amended statement at a concrete oracle. -/
theorem claim_C4_clamped_no_error_witness :
    (generatePassword (fun _ => 0) lengthThreeAllClasses).error = none ∧
    (generatePassword (fun _ => 0) lengthThreeAllClasses).password.length = 5 :=
  claim_C4_clamped_no_error (fun _ => 0)

end Autofill
